import Mathlib

/-!
# `TestFunc_Int_Double` (test_conformance/math_brute_force/i_unary_double.cpp)

A shallow embedding of the brute-force driver that checks a device
implementation of an `int f(double)` function against the host reference.

* A `double` is represented by its 64-bit encoding (a natural number).
* Machine integers are naturals / integers with explicit reductions
  modulo `2^32` and `2^64` (`size_t` and `uint64_t` are 64 bits wide).
* The OpenCL runtime is a `Backend`: the return code of every call the
  driver makes and the words found in `gOut[k]` after a read-back.
* The driver is a function producing the returned status, the FPU mode at
  return and the trace of the observable actions it performed.  The outer
  loop is driven by fuel, since `step = 0` makes the real loop spin forever.
-/

namespace IUnaryDouble

set_option maxRecDepth 100000

/-! ## Machine words -/

/-- Encoding of the double `0.0`. -/
def posZero : Nat := 0

/-- Encoding of the double `-0.0`. -/
def negZero : Nat := 2 ^ 63

/-- The pattern written by `memset_pattern4` into every output buffer (line 113). -/
def pattern : Nat := 0xffffdead

/-- An `int` read back through a `uint32_t *` (line 177) or stored in an
`unsigned int` (lines 188-189). -/
def toUInt32 (x : Int) : Nat := (x % 2 ^ 32).toNat

/-- The cast `(int)` applied to an unsigned 64-bit value (line 66). -/
def toInt32 (n : Nat) : Int :=
  if n % 2 ^ 32 < 2 ^ 31 then ((n % 2 ^ 32 : Nat) : Int) else ((n % 2 ^ 32 : Nat) : Int) - 2 ^ 32

/-- An `int` converted to `size_t` (the usual arithmetic conversion in `j * scale`). -/
def toSizeT (x : Int) : Nat := (x % 2 ^ 64).toNat

/-- Modelled from the spec: `IsDoubleSubnormal` lives in utility.h, which is not
part of the sources at hand.  A double is subnormal when its magnitude bits are
nonzero and below the smallest normal encoding `0x0010000000000000`.  Used by
the sample configurations only; the driver takes the predicate as a parameter. -/
def subnormalEncoding (x : Nat) : Bool :=
  decide (0 < x % 2 ^ 63 ∧ x % 2 ^ 63 < 2 ^ 52)

/-! ## Data model -/

/-- The entry of the function table used by the driver: `f->ftz` and the host
reference `f->dfunc.i_f`, a map from double encodings to `int`. -/
structure Func where
  ftz : Bool
  i_f : Nat → Int

/-- Globals, macros and helpers of the harness used by the driver. -/
structure Config where
  BUFFER_SIZE : Nat
  getTestStep : Nat
  gForceFTZ : Bool
  gWimpyMode : Bool
  gSkipCorrectnessTesting : Bool
  gVerboseBruteForce : Bool
  gMinVectorSizeIndex : Nat
  gMaxVectorSizeIndex : Nat
  DoubleFromUInt32 : Nat → Nat
  IsDoubleSubnormal : Nat → Bool

/-- The calls into the OpenCL runtime and the thread pool, tagged by the outer
index `i` of the iteration and the vector-size index `k` they are made for. -/
inductive Op
  | build
  | writeIn (i : Nat)
  | writeOut (i k : Nat)
  | setArg0 (i k : Nat)
  | setArg1 (i k : Nat)
  | ndrange (i k : Nat)
  | flush (i : Nat)
  | read (i k : Nat)
  deriving DecidableEq, Repr

/-- Messages of `vlog` and `vlog_error` other than the mismatch report. -/
inductive Msg
  | writeError
  | write2Error
  | kernelFailed
  | flushFailed
  | readFailed
  | progressVerbose
  | progressDot
  | wimpPass
  | passed
  | newline
  deriving DecidableEq, Repr

/-- Observable actions of a run, in program order. -/
inductive Event
  | DisableFTZ
  | Force64BitFPUPrecision
  | call (o : Op) (code : Int)
  | fill (i : Nat) (bits : List Nat)
  | memset (i k : Nat)
  | LogBuildError (k : Nat)
  | oracle (i : Nat)
  | compare (i j k : Nat)
  | mismatch (i j k : Nat) (err : Nat)
  | log (m : Msg)
  | RestoreFPState
  deriving DecidableEq, Repr

/-- The world outside the driver: the return code of every runtime call, the
words of `gOut[k]` after the read-back of iteration `i`, and the FPU. -/
structure Backend where
  ret : Op → Int
  out : Nat → Nat → Nat → Nat
  mode : Nat
  DisableFTZ : Nat → Nat
  Force64BitFPUPrecision : Nat → Nat

/-- How a piece of the function body hands control on; every case carries the
value of the local `error`. -/
inductive Flow
  | next (error : Int)
  | brk (error : Int)
  | exit (error : Int)
  | ret (error : Int)
  deriving DecidableEq, Repr

/-- What a run of the driver leaves behind. -/
structure Result where
  status : Int
  mode : Nat
  trace : List Event
  deriving DecidableEq, Repr

/-! ## The driver -/

/-- Line 64: `int ftz = f->ftz || gForceFTZ`. -/
def ftz (f : Func) (cfg : Config) : Bool := f.ftz || cfg.gForceFTZ

/-- Line 65: `uint64_t step = getTestStep(sizeof(cl_double), BUFFER_SIZE)`. -/
def step (cfg : Config) : Nat := cfg.getTestStep % 2 ^ 64

/-- Lines 66-67: `(int)((1ULL << 32) / (16 * BUFFER_SIZE / sizeof(cl_double)) + 1)`. -/
def scale (cfg : Config) : Int := toInt32 (2 ^ 32 / (16 * cfg.BUFFER_SIZE / 8) + 1)

/-- The bound `BUFFER_SIZE / sizeof(cl_double)` of the loops over the batch. -/
def batchSize (cfg : Config) : Nat := cfg.BUFFER_SIZE / 8

/-- Lines 92-101: the 32-bit argument of `DoubleFromUInt32` for slot `j`. -/
def inputBits (cfg : Config) (i j : Nat) : Nat :=
  if cfg.gWimpyMode then (i % 2 ^ 32 + j * toSizeT (scale cfg) % 2 ^ 64) % 2 ^ 64 % 2 ^ 32
  else (i % 2 ^ 32 + j) % 2 ^ 64 % 2 ^ 32

/-- Lines 94-100: the arguments of `DoubleFromUInt32` for the whole batch. -/
def batchBits (cfg : Config) (i : Nat) : List Nat :=
  (List.range (batchSize cfg)).map (inputBits cfg i)

/-- The double `s[j]` of iteration `i`. -/
def input (cfg : Config) (i j : Nat) : Nat := cfg.DoubleFromUInt32 (inputBits cfg i j)

/-- The loops `for (auto j = gMinVectorSizeIndex; j < gMaxVectorSizeIndex; j++)`. -/
def widths (cfg : Config) : List Nat :=
  List.range' cfg.gMinVectorSizeIndex (cfg.gMaxVectorSizeIndex - cfg.gMinVectorSizeIndex)

/-- Lines 193-194: `err = t[j] - q[j]; if (q[j] > t[j]) err = q[j] - t[j];` in `uint32_t`. -/
def ulpErr (t q : Nat) : Nat :=
  let err := (t + 2 ^ 32 - q) % 2 ^ 32
  if q > t then (q + 2 ^ 32 - t) % 2 ^ 32 else err

/-- Lines 184-201 for one lane: `none` when the lane is accepted (the test
`t[j] != q[j]` fails, or the `continue` of line 190 is taken) and `some err`
when the mismatch is reported with distance `err`. -/
def verifyLane (f : Func) (cfg : Config) (relaxedMode : Bool) (s t q : Nat) : Option Nat :=
  if t ≠ q then
    if (ftz f cfg || relaxedMode) && cfg.IsDoubleSubnormal s then
      let correct0 := toUInt32 (f.i_f posZero)
      let correct1 := toUInt32 (f.i_f negZero)
      if q = correct0 ∨ q = correct1 then none
      else some (ulpErr t q)
    else some (ulpErr t q)
  else none

/-- Sequencing: the second part runs only when the first falls through. -/
def seq (a : Flow × List Event) (g : Int → Flow × List Event) : Flow × List Event :=
  match a with
  | (Flow.next e, tr) => ((g e).1, tr ++ (g e).2)
  | (fl, tr) => (fl, tr)

/-- A `for` loop over a list whose body may leave the function. -/
def forEach {α : Type} (body : α → Int → Flow × List Event) : List α → Int → Flow × List Event
  | [], e => (Flow.next e, [])
  | x :: xs, e => seq (body x e) (forEach body xs)

/-- Actions that neither touch `error` nor leave the function. -/
def emit (evs : List Event) (error : Int) : Flow × List Event := (Flow.next error, evs)

/-- The idiom `if ((error = call)) { diagnostics; goto exit; }`. -/
def callOrExit (b : Backend) (o : Op) (diag : List Event) (_error : Int) : Flow × List Event :=
  if b.ret o ≠ 0 then (Flow.exit (b.ret o), Event.call o (b.ret o) :: diag)
  else (Flow.next (b.ret o), [Event.call o (b.ret o)])

/-- The idiom `if ((error = call)) { diagnostics; return error; }`. -/
def callOrReturn (b : Backend) (o : Op) (diag : List Event) (_error : Int) : Flow × List Event :=
  if b.ret o ≠ 0 then (Flow.ret (b.ret o), Event.call o (b.ret o) :: diag)
  else (Flow.next (b.ret o), [Event.call o (b.ret o)])

/-- Line 154: `if ((error = clFlush(gQueue))) vlog("clFlush failed\n");`. -/
def callLogged (b : Backend) (o : Op) (diag : List Event) (_error : Int) : Flow × List Event :=
  if b.ret o ≠ 0 then (Flow.next (b.ret o), Event.call o (b.ret o) :: diag)
  else (Flow.next (b.ret o), [Event.call o (b.ret o)])

/-- Lines 111-123: write garbage into the output array of width `k`. -/
def writeGarbage (b : Backend) (i k : Nat) (error : Int) : Flow × List Event :=
  seq (emit [Event.memset i k] error)
    (callOrExit b (Op.writeOut i k) [Event.log Msg.write2Error])

/-- Lines 126-151: bind the arguments of kernel `k` and enqueue it. -/
def runKernel (b : Backend) (i k : Nat) (error : Int) : Flow × List Event :=
  seq (callOrExit b (Op.setArg0 i k) [Event.LogBuildError k] error) fun error =>
  seq (callOrExit b (Op.setArg1 i k) [Event.LogBuildError k] error)
    (callOrExit b (Op.ndrange i k) [Event.log Msg.kernelFailed])

/-- Lines 163-172: blocking read-back of the output array of width `k`. -/
def readBack (b : Backend) (i k : Nat) (error : Int) : Flow × List Event :=
  callOrExit b (Op.read i k) [Event.log Msg.readFailed] error

/-- Line 174: `if (gSkipCorrectnessTesting) break;`. -/
def skipCheck (cfg : Config) (error : Int) : Flow × List Event :=
  if cfg.gSkipCorrectnessTesting then (Flow.brk error, []) else (Flow.next error, [])

/-- The oracle word `t[j]` of iteration `i`. -/
def expected (f : Func) (cfg : Config) (i j : Nat) : Nat := toUInt32 (f.i_f (input cfg i j))

/-- The device word `q[j]` of width `k` in iteration `i`. -/
def actual (b : Backend) (i j k : Nat) : Nat := b.out i k j % 2 ^ 32

/-- The outcome of lines 184-201 for slot `j` of width `k` in iteration `i`. -/
def laneVerdict (f : Func) (cfg : Config) (relaxedMode : Bool) (b : Backend) (i j k : Nat) :
    Option Nat :=
  verifyLane f cfg relaxedMode (input cfg i j) (expected f cfg i j) (actual b i j k)

/-- Lines 182-201: the body of the verification loops for slot `j`, width `k`. -/
def verifyOne (f : Func) (cfg : Config) (relaxedMode : Bool) (b : Backend) (i j k : Nat)
    (error : Int) : Flow × List Event :=
  match laneVerdict f cfg relaxedMode b i j k with
  | none => (Flow.next error, [Event.compare i j k])
  | some err => (Flow.exit (-1), [Event.compare i j k, Event.mismatch i j k err])

/-- Lines 178-203: verify data. -/
def verify (f : Func) (cfg : Config) (relaxedMode : Bool) (b : Backend) (i : Nat)
    (error : Int) : Flow × List Event :=
  forEach (fun j => forEach (verifyOne f cfg relaxedMode b i j) (widths cfg))
    (List.range (batchSize cfg)) error

/-- Lines 205-219: the progress report. -/
def progress (cfg : Config) (i : Nat) (error : Int) : Flow × List Event :=
  if i % 2 ^ 28 = 0 then
    (Flow.next error,
      [Event.log (if cfg.gVerboseBruteForce then Msg.progressVerbose else Msg.progressDot)])
  else (Flow.next error, [])

/-- Lines 90-219: the body of the outer loop for index `i`. -/
def loopBody (f : Func) (cfg : Config) (relaxedMode : Bool) (b : Backend) (i : Nat)
    (error : Int) : Flow × List Event :=
  seq (emit [Event.fill i (batchBits cfg i)] error) fun error =>
  seq (callOrReturn b (Op.writeIn i) [Event.log Msg.writeError] error) fun error =>
  seq (forEach (writeGarbage b i) (widths cfg) error) fun error =>
  seq (forEach (runKernel b i) (widths cfg) error) fun error =>
  seq (callLogged b (Op.flush i) [Event.log Msg.flushFailed] error) fun error =>
  seq (emit [Event.oracle i] error) fun error =>
  seq (forEach (readBack b i) (widths cfg) error) fun error =>
  seq (skipCheck cfg error) fun error =>
  seq (verify f cfg relaxedMode b i error)
    (progress cfg i)

/-- Line 88: `for (uint64_t i = 0; i < (1ULL << 32); i += step)`, started at `i`. -/
def mainLoop (body : Nat → Int → Flow × List Event) (stp : Nat) :
    Nat → Nat → Int → Option (Flow × List Event)
  | 0, _, _ => none
  | fuel + 1, i, error =>
    if i < 2 ^ 32 then
      match body i error with
      | (Flow.next e, tr) =>
        (mainLoop body stp fuel ((i + stp) % 2 ^ 64) e).map fun r => (r.1, tr ++ r.2)
      | (fl, tr) => some (fl, tr)
    else some (Flow.next error, [])

/-- Lines 222-230: the messages printed after the loop. -/
def epilogue (cfg : Config) : List Event :=
  (if cfg.gSkipCorrectnessTesting then []
   else [Event.log (if cfg.gWimpyMode then Msg.wimpPass else Msg.passed)])
  ++ [Event.log Msg.newline]

/-- Lines 222-234: what happens once the loop has been left. -/
def finish (cfg : Config) (b : Backend) (r : Flow × List Event) : Result :=
  match r with
  | (Flow.next e, tr) =>
    { status := e, mode := b.mode, trace := tr ++ epilogue cfg ++ [Event.RestoreFPState] }
  | (Flow.brk e, tr) =>
    { status := e, mode := b.mode, trace := tr ++ epilogue cfg ++ [Event.RestoreFPState] }
  | (Flow.exit e, tr) =>
    { status := e, mode := b.mode, trace := tr ++ [Event.RestoreFPState] }
  | (Flow.ret e, tr) =>
    { status := e, mode := b.Force64BitFPUPrecision (b.DisableFTZ b.mode), trace := tr }

/-- Lines 78-220: kernel build, then the outer loop. -/
def buildAndLoop (f : Func) (cfg : Config) (relaxedMode : Bool) (b : Backend) (fuel : Nat) :
    Option (Flow × List Event) :=
  if b.ret Op.build ≠ 0 then some (Flow.ret (b.ret Op.build), [Event.call Op.build (b.ret Op.build)])
  else
    (mainLoop (loopBody f cfg relaxedMode b) (step cfg) fuel 0 (b.ret Op.build)).map fun r =>
      (r.1, Event.call Op.build (b.ret Op.build) :: r.2)

/-- The function `TestFunc_Int_Double`: `none` when the fuel does not suffice. -/
def TestFunc_Int_Double (f : Func) (cfg : Config) (relaxedMode : Bool) (b : Backend)
    (fuel : Nat) : Option Result :=
  (buildAndLoop f cfg relaxedMode b fuel).map fun r =>
    let r1 := finish cfg b r
    { r1 with trace := Event.DisableFTZ :: Event.Force64BitFPUPrecision :: r1.trace }

/-! ## Reading traces -/

/-- The calls whose failure the driver treats as an error: all but `clFlush`. -/
def Op.fatal : Op → Bool
  | Op.flush _ => false
  | _ => true

/-- A fatal call that returned a nonzero code. -/
def Event.failing : Event → Bool
  | Event.call o c => o.fatal && decide (c ≠ 0)
  | _ => false

/-- Diagnostics and the restoration of the FPU state: events that are neither a
runtime call, nor input generation, nor oracle or comparison work. -/
def Event.quiet : Event → Bool
  | Event.log _ => true
  | Event.LogBuildError _ => true
  | Event.RestoreFPState => true
  | _ => false

/-- The input arrays generated during a run: outer index and batch, in order. -/
def fills : List Event → List (Nat × List Nat)
  | [] => []
  | Event.fill i bits :: tr => (i, bits) :: fills tr
  | _ :: tr => fills tr

/-- The lanes compared during a run, in order. -/
def compares : List Event → List (Nat × Nat × Nat)
  | [] => []
  | Event.compare i j k :: tr => (i, j, k) :: compares tr
  | _ :: tr => compares tr

/-- The number of outer iterations needed to reach `2^32` in strides of `stp`. -/
def iterations (stp : Nat) : Nat := (2 ^ 32 + stp - 1) / stp

/-! ## Sample inputs -/

/-- Modelled from the spec: the host reference of `signbit` (function_list.cpp and
reference_math.cpp are not part of the sources at hand); it returns the sign bit
of the encoding. -/
def signbit : Func := { ftz := false, i_f := fun x => if x / 2 ^ 63 % 2 = 1 then 1 else 0 }

/-- A decoder for the sample configurations: the 32-bit pattern becomes the high
word of the encoding, so `0x80000000` decodes to `-0.0`. -/
def highWord (bits : Nat) : Nat := bits % 2 ^ 32 * 2 ^ 32

/-- A small exhaustive-mode configuration: two doubles per batch, one vector
width, two outer iterations. -/
def smallCfg : Config :=
  { BUFFER_SIZE := 16, getTestStep := 2 ^ 31, gForceFTZ := false, gWimpyMode := false,
    gSkipCorrectnessTesting := false, gVerboseBruteForce := false,
    gMinVectorSizeIndex := 0, gMaxVectorSizeIndex := 1, DoubleFromUInt32 := highWord,
    IsDoubleSubnormal := subnormalEncoding }

/-- The configuration `smallCfg` in bounded-sampling mode. -/
def wimpyCfg : Config := { smallCfg with gWimpyMode := true }

/-- The configuration `smallCfg` with an empty range of vector widths. -/
def noWidthCfg : Config := { smallCfg with gMaxVectorSizeIndex := 0 }

/-- A runtime in which every call succeeds and the device computes `f` exactly. -/
def exactBackend (f : Func) (cfg : Config) : Backend :=
  { ret := fun _ => 0, out := fun i _ j => expected f cfg i j, mode := 1,
    DisableFTZ := fun _ => 0, Force64BitFPUPrecision := fun m => m }

/-- A runtime whose kernels never write their output: the pattern survives. -/
def idleBackend : Backend :=
  { ret := fun _ => 0, out := fun _ _ _ => pattern, mode := 1,
    DisableFTZ := fun _ => 0, Force64BitFPUPrecision := fun m => m }

/-- The runtime `exactBackend` with one call `bad` returning `code`. -/
def faultyBackend (f : Func) (cfg : Config) (bad : Op) (code : Int) : Backend :=
  { exactBackend f cfg with ret := fun o => if o = bad then code else 0 }

/-! ## Properties of partial runs -/

/-- A property of partial runs that holds of the empty run and is kept by sequencing. -/
def SeqClosed (P : Flow × List Event → Prop) : Prop :=
  (∀ e, P (Flow.next e, [])) ∧ ∀ a g, P a → (∀ e, P (g e)) → P (seq a g)

/-- No fatal call in the trace returned a nonzero code. -/
def NoFail (tr : List Event) : Prop := ∀ ev ∈ tr, Event.failing ev = false

/-- The trace holds a fatal call returning `e ≠ 0`, no fatal call failed before it
and only diagnostics and the FPU restoration come after it. -/
def FirstFail (tr : List Event) (e : Int) : Prop :=
  ∃ pre o post, tr = pre ++ Event.call o e :: post ∧ o.fatal = true ∧ e ≠ 0 ∧
    NoFail pre ∧ ∀ ev ∈ post, Event.quiet ev = true

/-- Shape of a partial run with respect to failing calls. -/
def ErrShape (a : Flow × List Event) : Prop :=
  match a.1 with
  | Flow.next _ => NoFail a.2
  | Flow.brk _ => NoFail a.2
  | Flow.exit e => NoFail a.2 ∨ FirstFail a.2 e
  | Flow.ret e => NoFail a.2 ∨ FirstFail a.2 e

/-- Events of the verifier. -/
def Event.isVerify : Event → Bool
  | Event.compare _ _ _ => true
  | Event.mismatch _ _ _ _ => true
  | _ => false

/-- Shape of a partial run with respect to the verifier: only lanes of the batch
are compared, a mismatch is reported only with the verdict of its lane, and a
compared lane that is not accepted ends the partial run with `error = -1`,
right after its report. -/
def VerShape (f : Func) (cfg : Config) (relaxedMode : Bool) (b : Backend)
    (a : Flow × List Event) : Prop :=
  (∀ i j k, Event.compare i j k ∈ a.2 → j < batchSize cfg ∧ k ∈ widths cfg) ∧
  (∀ i j k err, Event.mismatch i j k err ∈ a.2 →
    laneVerdict f cfg relaxedMode b i j k = some err) ∧
  (∀ i j k, Event.compare i j k ∈ a.2 → laneVerdict f cfg relaxedMode b i j k ≠ none →
    a.1 = Flow.exit (-1) ∧
      ∃ pre err, a.2 = pre ++ [Event.compare i j k, Event.mismatch i j k err])

/-- A partial run that started verifying an iteration with a lane that is not
accepted leaves with `error = -1`. -/
def AbortShape (f : Func) (cfg : Config) (relaxedMode : Bool) (b : Backend)
    (a : Flow × List Event) : Prop :=
  ∀ i, (∃ j k, Event.compare i j k ∈ a.2) →
    (∃ j k, j < batchSize cfg ∧ k ∈ widths cfg ∧ laneVerdict f cfg relaxedMode b i j k ≠ none) →
    a.1 = Flow.exit (-1)

/-- The partial run falls through or leaves through `exit` with `error = c`. -/
def NextOrExit (c : Int) (a : Flow × List Event) : Prop :=
  a.1 = Flow.exit c ∨ ∃ e, a.1 = Flow.next e

/-- Every comparison of the partial run belongs to iteration `i`. -/
def ComparesOf (i : Nat) (a : Flow × List Event) : Prop :=
  ∀ i1 j k, Event.compare i1 j k ∈ a.2 → i1 = i

/-- The acceptance rule in the words of the specification: the device word equals
the oracle word, or the function is flush-to-zero sensitive (its own flag, the
forced override or fast-relaxed-math), the input is subnormal and the device word
is the oracle word at `+0.0` or at `-0.0`. -/
def specAccepts (f : Func) (cfg : Config) (relaxedMode : Bool) (s t q : Nat) : Prop :=
  q = t ∨ ((f.ftz = true ∨ cfg.gForceFTZ = true ∨ relaxedMode = true) ∧
    cfg.IsDoubleSubnormal s = true ∧
    (q = toUInt32 (f.i_f posZero) ∨ q = toUInt32 (f.i_f negZero)))

instance (f : Func) (cfg : Config) (relaxedMode : Bool) (s t q : Nat) :
    Decidable (specAccepts f cfg relaxedMode s t q) := by
  unfold specAccepts
  infer_instance

/-- A runtime in which every call succeeds and every lane reads back `0`. -/
def zeroBackend : Backend :=
  { ret := fun _ => 0, out := fun _ _ _ => 0, mode := 1,
    DisableFTZ := fun _ => 0, Force64BitFPUPrecision := fun m => m }

/-- The run of `signbit` on `smallCfg` against `idleBackend`. -/
def idleRun : Result :=
  { status := -1, mode := 1,
    trace := [Event.DisableFTZ, Event.Force64BitFPUPrecision, Event.call Op.build 0,
      Event.fill 0 [0, 1], Event.call (Op.writeIn 0) 0, Event.memset 0 0,
      Event.call (Op.writeOut 0 0) 0, Event.call (Op.setArg0 0 0) 0,
      Event.call (Op.setArg1 0 0) 0, Event.call (Op.ndrange 0 0) 0,
      Event.call (Op.flush 0) 0, Event.oracle 0, Event.call (Op.read 0 0) 0,
      Event.compare 0 0 0, Event.mismatch 0 0 0 4294958765, Event.RestoreFPState] }

/-- The first iteration of a run on `smallCfg` up to the read-back. -/
def firstDispatch : List Event :=
  [Event.DisableFTZ, Event.Force64BitFPUPrecision, Event.call Op.build 0,
    Event.fill 0 [0, 1], Event.call (Op.writeIn 0) 0, Event.memset 0 0,
    Event.call (Op.writeOut 0 0) 0, Event.call (Op.setArg0 0 0) 0,
    Event.call (Op.setArg1 0 0) 0, Event.call (Op.ndrange 0 0) 0,
    Event.call (Op.flush 0) 0, Event.oracle 0]

/-- The second iteration of a run on `smallCfg` up to the read-back. -/
def secondDispatch : List Event :=
  [Event.fill 2147483648 [2147483648, 2147483649], Event.call (Op.writeIn 2147483648) 0,
    Event.memset 2147483648 0, Event.call (Op.writeOut 2147483648 0) 0,
    Event.call (Op.setArg0 2147483648 0) 0, Event.call (Op.setArg1 2147483648 0) 0,
    Event.call (Op.ndrange 2147483648 0) 0, Event.call (Op.flush 2147483648) 0,
    Event.oracle 2147483648]

/-- The run of `signbit` on `smallCfg` against `zeroBackend`: the lane holding
`-0.0` is the first of the second iteration. -/
def zeroRun : Result :=
  { status := -1, mode := 1,
    trace := firstDispatch ++ [Event.call (Op.read 0 0) 0, Event.compare 0 0 0,
      Event.compare 0 1 0, Event.log Msg.progressDot] ++ secondDispatch ++
      [Event.call (Op.read 2147483648 0) 0, Event.compare 2147483648 0 0,
       Event.mismatch 2147483648 0 0 1, Event.RestoreFPState] }

/-- The run of `signbit` on `smallCfg` when the first read-back fails with `-5`. -/
def readFailRun : Result :=
  { status := -5, mode := 1,
    trace := firstDispatch ++
      [Event.call (Op.read 0 0) (-5), Event.log Msg.readFailed, Event.RestoreFPState] }

/-- Every event of the partial run satisfies `p`. -/
def AllEvents (p : Event → Prop) (a : Flow × List Event) : Prop := ∀ ev ∈ a.2, p ev

/-- The partial run falls through without generating an input array. -/
def FillFree (a : Flow × List Event) : Prop := (∃ e, a.1 = Flow.next e) ∧ fills a.2 = []

/-- An exhaustive-mode configuration with a 2 MiB buffer and the stride equal to
the number of doubles per batch. -/
def exhaustiveCfg : Config :=
  { BUFFER_SIZE := 2097152, getTestStep := 262144, gForceFTZ := false, gWimpyMode := false,
    gSkipCorrectnessTesting := false, gVerboseBruteForce := false,
    gMinVectorSizeIndex := 0, gMaxVectorSizeIndex := 6, DoubleFromUInt32 := highWord,
    IsDoubleSubnormal := subnormalEncoding }

/-- The run of `signbit` on `wimpyCfg` against a device that computes it exactly. -/
def wimpyRun : Result :=
  { status := 0, mode := 1,
    trace := [Event.DisableFTZ, Event.Force64BitFPUPrecision, Event.call Op.build 0,
      Event.fill 0 [0, 134217729], Event.call (Op.writeIn 0) 0, Event.memset 0 0,
      Event.call (Op.writeOut 0 0) 0, Event.call (Op.setArg0 0 0) 0,
      Event.call (Op.setArg1 0 0) 0, Event.call (Op.ndrange 0 0) 0,
      Event.call (Op.flush 0) 0, Event.oracle 0, Event.call (Op.read 0 0) 0,
      Event.compare 0 0 0, Event.compare 0 1 0, Event.log Msg.progressDot,
      Event.fill 2147483648 [2147483648, 2281701377], Event.call (Op.writeIn 2147483648) 0,
      Event.memset 2147483648 0, Event.call (Op.writeOut 2147483648 0) 0,
      Event.call (Op.setArg0 2147483648 0) 0, Event.call (Op.setArg1 2147483648 0) 0,
      Event.call (Op.ndrange 2147483648 0) 0, Event.call (Op.flush 2147483648) 0,
      Event.oracle 2147483648, Event.call (Op.read 2147483648 0) 0,
      Event.compare 2147483648 0 0, Event.compare 2147483648 1 0,
      Event.log Msg.progressDot, Event.log Msg.wimpPass, Event.log Msg.newline,
      Event.RestoreFPState] }

/-- The run of `signbit` on `noWidthCfg` when every fatal call succeeds and the
`clFlush` of the last iteration returns `-36`. -/
def flushLeakRun : Result :=
  { status := -36, mode := 1,
    trace := [Event.DisableFTZ, Event.Force64BitFPUPrecision, Event.call Op.build 0,
      Event.fill 0 [0, 1], Event.call (Op.writeIn 0) 0, Event.call (Op.flush 0) 0,
      Event.oracle 0, Event.log Msg.progressDot,
      Event.fill 2147483648 [2147483648, 2147483649], Event.call (Op.writeIn 2147483648) 0,
      Event.call (Op.flush 2147483648) (-36), Event.log Msg.flushFailed,
      Event.oracle 2147483648, Event.log Msg.progressDot, Event.log Msg.passed,
      Event.log Msg.newline, Event.RestoreFPState] }

/-- A partial run that leaves through `return error` does so with the nonzero
code of the kernel build or of an upload of the input array. -/
def RetShape (b : Backend) (a : Flow × List Event) : Prop :=
  ∀ e, a.1 = Flow.ret e → e ≠ 0 ∧
    ((b.ret Op.build = e ∧ Event.call Op.build e ∈ a.2) ∨
      ∃ i, b.ret (Op.writeIn i) = e ∧ Event.call (Op.writeIn i) e ∈ a.2)

/-- The lanes of iteration `i`, in the order of the loops of lines 178-180:
slots outside, vector widths inside. -/
def lanes (cfg : Config) (i : Nat) : List (Nat × Nat × Nat) :=
  (List.range (batchSize cfg)).flatMap fun j => (widths cfg).map fun k => (i, j, k)

/-- The partial run falls through and compares exactly the lanes `L`, in order. -/
def Compared (L : List (Nat × Nat × Nat)) (a : Flow × List Event) : Prop :=
  (∃ e, a.1 = Flow.next e) ∧ compares a.2 = L

/-- The partial run compares nothing. -/
def CmpFree (a : Flow × List Event) : Prop := compares a.2 = []

/-- A partial run that compares a lane of iteration `i` compares all of them. -/
def AllCompared (cfg : Config) (i : Nat) (a : Flow × List Event) : Prop :=
  (∃ j k, Event.compare i j k ∈ a.2) →
    ∀ j k, j < batchSize cfg → k ∈ widths cfg → Event.compare i j k ∈ a.2

/-! ## Words and the lane verifier -/

theorem toUInt32_lt (x : Int) : toUInt32 x < 2 ^ 32 := by
  unfold toUInt32
  have h1 : 0 ≤ x % 2 ^ 32 := Int.emod_nonneg _ (by norm_num)
  have h2 : x % 2 ^ 32 < 2 ^ 32 := Int.emod_lt_of_pos _ (by norm_num)
  omega

theorem actual_lt (b : Backend) (i j k : Nat) : actual b i j k < 2 ^ 32 :=
  Nat.mod_lt _ (by norm_num)

theorem expected_lt (f : Func) (cfg : Config) (i j : Nat) : expected f cfg i j < 2 ^ 32 :=
  toUInt32_lt _

theorem ulpErr_of_le {t q : Nat} (ht : t < 2 ^ 32) (h : q ≤ t) : ulpErr t q = t - q := by
  unfold ulpErr
  have h1 : ¬ q > t := by omega
  simp only [h1, if_false]
  omega

theorem ulpErr_of_lt {t q : Nat} (hq : q < 2 ^ 32) (h : t < q) : ulpErr t q = q - t := by
  unfold ulpErr
  simp only [gt_iff_lt, h, if_true]
  omega

theorem verifyLane_some {f : Func} {cfg : Config} {relaxedMode : Bool} {s t q err : Nat}
    (h : verifyLane f cfg relaxedMode s t q = some err) : t ≠ q ∧ err = ulpErr t q := by
  unfold verifyLane at h
  by_cases htq : t = q
  · simp [htq] at h
  · refine ⟨htq, ?_⟩
    rw [if_pos htq] at h
    split_ifs at h <;> simp_all

theorem verifyLane_eq_none_iff (f : Func) (cfg : Config) (relaxedMode : Bool) (s t q : Nat) :
    verifyLane f cfg relaxedMode s t q = none ↔
      (q = t ∨ ((f.ftz = true ∨ cfg.gForceFTZ = true ∨ relaxedMode = true) ∧
        cfg.IsDoubleSubnormal s = true ∧
        (q = toUInt32 (f.i_f posZero) ∨ q = toUInt32 (f.i_f negZero)))) := by
  unfold verifyLane ftz
  by_cases htq : t = q
  · simp [htq]
  · have hqt : ¬ q = t := fun h => htq h.symm
    rw [if_pos htq]
    simp only [hqt, false_or]
    by_cases hs : cfg.IsDoubleSubnormal s = true
    · by_cases hf : (f.ftz || cfg.gForceFTZ || relaxedMode) = true
      · have hf2 : f.ftz = true ∨ cfg.gForceFTZ = true ∨ relaxedMode = true := by
          simpa [or_assoc] using hf
        simp only [hs, hf, hf2, Bool.and_self, if_true, true_and]
        split_ifs with h <;> simp [h]
      · have hf2 : ¬ (f.ftz = true ∨ cfg.gForceFTZ = true ∨ relaxedMode = true) := by
          simpa [or_assoc] using hf
        simp [hs, hf, hf2]
    · simp [hs]

/-! ## Sequencing -/

theorem seq_next (e : Int) (tr : List Event) (g : Int → Flow × List Event) :
    seq (Flow.next e, tr) g = ((g e).1, tr ++ (g e).2) := rfl

theorem forEach_closed {P : Flow × List Event → Prop} (hP : SeqClosed P) {α : Type}
    (body : α → Int → Flow × List Event) :
    ∀ (xs : List α), (∀ x ∈ xs, ∀ e, P (body x e)) → ∀ e, P (forEach body xs e) := by
  intro xs
  induction xs with
  | nil => intro _ e; exact hP.1 e
  | cons x xs ih =>
    intro hb e
    show P (seq (body x e) (forEach body xs))
    exact hP.2 _ _ (hb x (List.mem_cons_self _ _) e)
      (ih fun y hy => hb y (List.mem_cons_of_mem _ hy))

theorem mainLoop_closed {P : Flow × List Event → Prop} (hP : SeqClosed P)
    (body : Nat → Int → Flow × List Event) (stp : Nat) (hb : ∀ i e, P (body i e)) :
    ∀ fuel i e r, mainLoop body stp fuel i e = some r → P r := by
  intro fuel
  induction fuel with
  | zero => intro i e r h; simp [mainLoop] at h
  | succ n ih =>
    intro i e r h
    unfold mainLoop at h
    split_ifs at h with hi
    · have hbi := hb i e
      rcases hbody : body i e with ⟨fl, tr⟩
      rw [hbody] at h hbi
      cases fl with
      | next e1 =>
        simp only [Option.map_eq_some'] at h
        obtain ⟨r1, hr1, rfl⟩ := h
        have := hP.2 (Flow.next e1, tr) (fun _ => r1) hbi (fun _ => ih _ _ _ hr1)
        simpa [seq_next] using this
      | brk e1 => simp only [Option.some.injEq] at h; subst h; exact hbi
      | exit e1 => simp only [Option.some.injEq] at h; subst h; exact hbi
      | ret e1 => simp only [Option.some.injEq] at h; subst h; exact hbi
    · simp only [Option.some.injEq] at h
      subst h
      exact hP.1 e

theorem loopBody_closed {P : Flow × List Event → Prop} (hP : SeqClosed P)
    (f : Func) (cfg : Config) (relaxedMode : Bool) (b : Backend) (i : Nat)
    (hfill : ∀ e, P (emit [Event.fill i (batchBits cfg i)] e))
    (hwin : ∀ e, P (callOrReturn b (Op.writeIn i) [Event.log Msg.writeError] e))
    (hgarb : ∀ k e, k ∈ widths cfg → P (writeGarbage b i k e))
    (hrun : ∀ k e, k ∈ widths cfg → P (runKernel b i k e))
    (hflush : ∀ e, P (callLogged b (Op.flush i) [Event.log Msg.flushFailed] e))
    (horacle : ∀ e, P (emit [Event.oracle i] e))
    (hread : ∀ k e, k ∈ widths cfg → P (readBack b i k e))
    (hskip : ∀ e, P (skipCheck cfg e))
    (hverify : ∀ e, P (verify f cfg relaxedMode b i e))
    (hprog : ∀ e, P (progress cfg i e)) :
    ∀ e, P (loopBody f cfg relaxedMode b i e) := by
  intro e
  unfold loopBody
  refine hP.2 _ _ (hfill e) fun e => ?_
  refine hP.2 _ _ (hwin e) fun e => ?_
  refine hP.2 _ _ (forEach_closed hP _ _ (fun k hk e => hgarb k e hk) e) fun e => ?_
  refine hP.2 _ _ (forEach_closed hP _ _ (fun k hk e => hrun k e hk) e) fun e => ?_
  refine hP.2 _ _ (hflush e) fun e => ?_
  refine hP.2 _ _ (horacle e) fun e => ?_
  refine hP.2 _ _ (forEach_closed hP _ _ (fun k hk e => hread k e hk) e) fun e => ?_
  refine hP.2 _ _ (hskip e) fun e => ?_
  exact hP.2 _ _ (hverify e) (hprog)

/-! ## Failing calls -/

theorem noFail_nil : NoFail [] := by
  intro ev h; cases h

theorem noFail_append {a b : List Event} : NoFail (a ++ b) ↔ NoFail a ∧ NoFail b := by
  unfold NoFail
  constructor
  · intro h
    exact ⟨fun ev hev => h ev (List.mem_append_left _ hev),
      fun ev hev => h ev (List.mem_append_right _ hev)⟩
  · rintro ⟨h1, h2⟩ ev hev
    rcases List.mem_append.1 hev with h | h
    · exact h1 ev h
    · exact h2 ev h

theorem noFail_cons {a : Event} {b : List Event} :
    NoFail (a :: b) ↔ Event.failing a = false ∧ NoFail b := by
  unfold NoFail
  simp

theorem failing_of_quiet {ev : Event} (h : Event.quiet ev = true) : Event.failing ev = false := by
  cases ev <;> simp_all [Event.quiet, Event.failing]

theorem noFail_of_quiet {tr : List Event} (h : ∀ ev ∈ tr, Event.quiet ev = true) : NoFail tr :=
  fun ev hev => failing_of_quiet (h ev hev)

theorem firstFail_append_left {tr tr1 : List Event} {e : Int} (h : NoFail tr)
    (h1 : FirstFail tr1 e) : FirstFail (tr ++ tr1) e := by
  obtain ⟨pre, o, post, rfl, ho, he, hpre, hpost⟩ := h1
  exact ⟨tr ++ pre, o, post, by simp, ho, he, noFail_append.2 ⟨h, hpre⟩, hpost⟩

theorem firstFail_append_right {tr q : List Event} {e : Int} (h : FirstFail tr e)
    (hq : ∀ ev ∈ q, Event.quiet ev = true) : FirstFail (tr ++ q) e := by
  obtain ⟨pre, o, post, rfl, ho, he, hpre, hpost⟩ := h
  refine ⟨pre, o, post ++ q, by simp, ho, he, hpre, ?_⟩
  intro ev hev
  rcases List.mem_append.1 hev with h | h
  · exact hpost ev h
  · exact hq ev h

theorem first_fail_unique {pre pre1 post post1 : List Event} {a a1 : Event}
    (h : pre ++ a :: post = pre1 ++ a1 :: post1) (hpre : NoFail pre) (hpre1 : NoFail pre1)
    (ha : Event.failing a = true) (ha1 : Event.failing a1 = true) :
    pre = pre1 ∧ a = a1 ∧ post = post1 := by
  induction pre generalizing pre1 with
  | nil =>
    cases pre1 with
    | nil => simpa using h
    | cons x xs =>
      simp only [List.nil_append, List.cons_append, List.cons.injEq] at h
      have := hpre1 x (List.mem_cons_self _ _)
      rw [← h.1, ha] at this
      cases this
  | cons y ys ih =>
    cases pre1 with
    | nil =>
      simp only [List.nil_append, List.cons_append, List.cons.injEq] at h
      have := hpre y (List.mem_cons_self _ _)
      rw [h.1, ha1] at this
      cases this
    | cons x xs =>
      simp only [List.cons_append, List.cons.injEq] at h
      obtain ⟨h1, h2, h3⟩ := ih h.2 (noFail_cons.1 hpre).2 (noFail_cons.1 hpre1).2
      exact ⟨by rw [h.1, h1], h2, h3⟩

theorem errShape_closed : SeqClosed ErrShape := by
  refine ⟨fun e => noFail_nil, ?_⟩
  rintro ⟨fl, tr⟩ g ha hg
  cases fl with
  | next e =>
    rw [seq_next]
    have hge := hg e
    have ha1 : NoFail tr := ha
    unfold ErrShape at hge ⊢
    rcases hfl : (g e).1 with e1 | e1 | e1 | e1 <;> rw [hfl] at hge <;> simp only at hge ⊢
    · exact noFail_append.2 ⟨ha1, hge⟩
    · exact noFail_append.2 ⟨ha1, hge⟩
    · rcases hge with h | h
      · exact Or.inl (noFail_append.2 ⟨ha1, h⟩)
      · exact Or.inr (firstFail_append_left ha1 h)
    · rcases hge with h | h
      · exact Or.inl (noFail_append.2 ⟨ha1, h⟩)
      · exact Or.inr (firstFail_append_left ha1 h)
  | brk e => exact ha
  | exit e => exact ha
  | ret e => exact ha

theorem errShape_emit (evs : List Event) (h : NoFail evs) (e : Int) : ErrShape (emit evs e) := h

theorem errShape_callOrExit (b : Backend) (o : Op) (diag : List Event)
    (hd : ∀ ev ∈ diag, Event.quiet ev = true) (e : Int) : ErrShape (callOrExit b o diag e) := by
  unfold callOrExit
  split_ifs with h
  · by_cases ho : o.fatal = true
    · exact Or.inr ⟨[], o, diag, rfl, ho, h, noFail_nil, hd⟩
    · refine Or.inl (noFail_cons.2 ⟨?_, noFail_of_quiet hd⟩)
      simp [Event.failing, ho]
  · have h0 : b.ret o = 0 := by simpa using h
    show NoFail _
    refine noFail_cons.2 ⟨?_, noFail_nil⟩
    simp [Event.failing, h0]

theorem errShape_callOrReturn (b : Backend) (o : Op) (diag : List Event)
    (hd : ∀ ev ∈ diag, Event.quiet ev = true) (e : Int) : ErrShape (callOrReturn b o diag e) := by
  unfold callOrReturn
  split_ifs with h
  · by_cases ho : o.fatal = true
    · exact Or.inr ⟨[], o, diag, rfl, ho, h, noFail_nil, hd⟩
    · refine Or.inl (noFail_cons.2 ⟨?_, noFail_of_quiet hd⟩)
      simp [Event.failing, ho]
  · have h0 : b.ret o = 0 := by simpa using h
    show NoFail _
    refine noFail_cons.2 ⟨?_, noFail_nil⟩
    simp [Event.failing, h0]

theorem errShape_flush (b : Backend) (i : Nat) (diag : List Event)
    (hd : ∀ ev ∈ diag, Event.quiet ev = true) (e : Int) :
    ErrShape (callLogged b (Op.flush i) diag e) := by
  unfold callLogged
  split_ifs with h
  · show NoFail _
    refine noFail_cons.2 ⟨?_, noFail_of_quiet hd⟩
    simp [Event.failing, Op.fatal]
  · show NoFail _
    refine noFail_cons.2 ⟨?_, noFail_nil⟩
    simp [Event.failing, Op.fatal]

theorem errShape_verifyOne (f : Func) (cfg : Config) (relaxedMode : Bool) (b : Backend)
    (i j k : Nat) (e : Int) : ErrShape (verifyOne f cfg relaxedMode b i j k e) := by
  unfold verifyOne
  split
  · show NoFail _
    simp [NoFail, Event.failing]
  · refine Or.inl ?_
    simp [NoFail, Event.failing]

theorem errShape_loopBody (f : Func) (cfg : Config) (relaxedMode : Bool) (b : Backend)
    (i : Nat) (e : Int) : ErrShape (loopBody f cfg relaxedMode b i e) := by
  have hq : ∀ m, ∀ ev ∈ [Event.log m], Event.quiet ev = true := by
    intro m ev hev; simp at hev; subst hev; rfl
  have hq2 : ∀ k, ∀ ev ∈ [Event.LogBuildError k], Event.quiet ev = true := by
    intro m ev hev; simp at hev; subst hev; rfl
  refine loopBody_closed errShape_closed f cfg relaxedMode b i ?_ ?_ ?_ ?_ ?_ ?_ ?_ ?_ ?_ ?_ e
  · intro e; exact errShape_emit _ (by simp [NoFail, Event.failing]) e
  · intro e; exact errShape_callOrReturn _ _ _ (hq _) e
  · intro k e _
    exact errShape_closed.2 _ _ (errShape_emit _ (by simp [NoFail, Event.failing]) e)
      (errShape_callOrExit _ _ _ (hq _))
  · intro k e _
    refine errShape_closed.2 _ _ (errShape_callOrExit _ _ _ (hq2 _) e) fun e => ?_
    exact errShape_closed.2 _ _ (errShape_callOrExit _ _ _ (hq2 _) e)
      (errShape_callOrExit _ _ _ (hq _))
  · intro e; exact errShape_flush _ _ _ (hq _) e
  · intro e; exact errShape_emit _ (by simp [NoFail, Event.failing]) e
  · intro k e _; exact errShape_callOrExit _ _ _ (hq _) e
  · intro e
    unfold skipCheck
    split_ifs <;> exact noFail_nil
  · intro e
    exact forEach_closed errShape_closed _ _
      (fun j _ e => forEach_closed errShape_closed _ _
        (fun k _ e => errShape_verifyOne f cfg relaxedMode b i j k e) e) e
  · intro e
    unfold progress
    split_ifs <;> first | exact noFail_nil | (show NoFail _; simp [NoFail, Event.failing])

/-! ## From the loop to the whole function -/

theorem testFunc_some {f : Func} {cfg : Config} {relaxedMode : Bool} {b : Backend} {fuel : Nat}
    {r : Result} (h : TestFunc_Int_Double f cfg relaxedMode b fuel = some r) :
    ∃ a, buildAndLoop f cfg relaxedMode b fuel = some a ∧
      r = { status := (finish cfg b a).status, mode := (finish cfg b a).mode,
            trace := Event.DisableFTZ :: Event.Force64BitFPUPrecision :: (finish cfg b a).trace } := by
  unfold TestFunc_Int_Double at h
  simp only [Option.map_eq_some'] at h
  obtain ⟨a, ha, rfl⟩ := h
  exact ⟨a, ha, rfl⟩

theorem buildAndLoop_closed {P : Flow × List Event → Prop} (hP : SeqClosed P)
    {f : Func} {cfg : Config} {relaxedMode : Bool} {b : Backend}
    (hbody : ∀ i e, P (loopBody f cfg relaxedMode b i e))
    (hbuild : ∀ e, P (callOrReturn b Op.build [] e))
    {fuel : Nat} {a : Flow × List Event}
    (h : buildAndLoop f cfg relaxedMode b fuel = some a) : P a := by
  unfold buildAndLoop at h
  have hb := hbuild 0
  unfold callOrReturn at hb
  split_ifs at h with hc
  · rw [if_pos hc] at hb
    simp only [Option.some.injEq] at h
    subst h
    exact hb
  · rw [if_neg hc] at hb
    simp only [Option.map_eq_some'] at h
    obtain ⟨r1, hr1, rfl⟩ := h
    have := hP.2 _ (fun _ => r1) hb (fun _ => mainLoop_closed hP _ _ hbody _ _ _ _ hr1)
    simpa [seq_next] using this

theorem epilogue_quiet (cfg : Config) : ∀ ev ∈ epilogue cfg ++ [Event.RestoreFPState],
    Event.quiet ev = true := by
  intro ev hev
  unfold epilogue at hev
  split_ifs at hev <;> simp at hev <;> rcases hev with rfl | rfl | rfl <;> rfl

theorem run_errShape {f : Func} {cfg : Config} {relaxedMode : Bool} {b : Backend} {fuel : Nat}
    {r : Result} (h : TestFunc_Int_Double f cfg relaxedMode b fuel = some r) :
    NoFail r.trace ∨ FirstFail r.trace r.status := by
  obtain ⟨a, ha, rfl⟩ := testFunc_some h
  have hshape : ErrShape a := by
    refine buildAndLoop_closed errShape_closed (errShape_loopBody f cfg relaxedMode b) ?_ ha
    intro e
    exact errShape_callOrReturn b Op.build [] (by simp) e
  have hpre : NoFail [Event.DisableFTZ, Event.Force64BitFPUPrecision] := by
    simp [NoFail, Event.failing]
  have hrest : ∀ ev ∈ [Event.RestoreFPState], Event.quiet ev = true := by
    intro ev hev; simp at hev; subst hev; rfl
  show NoFail ([Event.DisableFTZ, Event.Force64BitFPUPrecision] ++ (finish cfg b a).trace) ∨
    FirstFail ([Event.DisableFTZ, Event.Force64BitFPUPrecision] ++ (finish cfg b a).trace)
      (finish cfg b a).status
  rcases a with ⟨fl, tr⟩
  cases fl with
  | next e =>
    have h1 : NoFail tr := hshape
    refine Or.inl (noFail_append.2 ⟨hpre, ?_⟩)
    show NoFail (tr ++ epilogue cfg ++ [Event.RestoreFPState])
    rw [List.append_assoc]
    exact noFail_append.2 ⟨h1, noFail_of_quiet (epilogue_quiet cfg)⟩
  | brk e =>
    have h1 : NoFail tr := hshape
    refine Or.inl (noFail_append.2 ⟨hpre, ?_⟩)
    show NoFail (tr ++ epilogue cfg ++ [Event.RestoreFPState])
    rw [List.append_assoc]
    exact noFail_append.2 ⟨h1, noFail_of_quiet (epilogue_quiet cfg)⟩
  | exit e =>
    have h1 : NoFail tr ∨ FirstFail tr e := hshape
    rcases h1 with h1 | h1
    · exact Or.inl (noFail_append.2 ⟨hpre, noFail_append.2 ⟨h1, noFail_of_quiet hrest⟩⟩)
    · exact Or.inr (firstFail_append_left hpre (firstFail_append_right h1 hrest))
  | ret e =>
    have h1 : NoFail tr ∨ FirstFail tr e := hshape
    rcases h1 with h1 | h1
    · exact Or.inl (noFail_append.2 ⟨hpre, h1⟩)
    · exact Or.inr (firstFail_append_left hpre h1)

/-! ## Fuel -/

theorem mainLoop_mono (body : Nat → Int → Flow × List Event) (stp : Nat) :
    ∀ fuel i e r, mainLoop body stp fuel i e = some r →
      mainLoop body stp (fuel + 1) i e = some r := by
  intro fuel
  induction fuel with
  | zero => intro i e r h; simp [mainLoop] at h
  | succ n ih =>
    intro i e r h
    rw [mainLoop] at h ⊢
    split_ifs at h ⊢ with hi
    · rcases hbody : body i e with ⟨fl, tr⟩
      rw [hbody] at h
      cases fl with
      | next e1 =>
        simp only [Option.map_eq_some'] at h ⊢
        obtain ⟨r1, hr1, rfl⟩ := h
        exact ⟨r1, ih _ _ _ hr1, rfl⟩
      | brk e1 => exact h
      | exit e1 => exact h
      | ret e1 => exact h
    · exact h

theorem mainLoop_mono_le (body : Nat → Int → Flow × List Event) (stp : Nat)
    {fuel fuel1 : Nat} (hle : fuel ≤ fuel1) {i : Nat} {e : Int} {r : Flow × List Event}
    (h : mainLoop body stp fuel i e = some r) : mainLoop body stp fuel1 i e = some r := by
  induction hle with
  | refl => exact h
  | step _ ih => exact mainLoop_mono _ _ _ _ _ _ ih

theorem testFunc_mono {f : Func} {cfg : Config} {relaxedMode : Bool} {b : Backend}
    {fuel fuel1 : Nat} (hle : fuel ≤ fuel1) {r : Result}
    (h : TestFunc_Int_Double f cfg relaxedMode b fuel = some r) :
    TestFunc_Int_Double f cfg relaxedMode b fuel1 = some r := by
  unfold TestFunc_Int_Double buildAndLoop at h ⊢
  split_ifs at h ⊢ with hc
  · exact h
  · simp only [Option.map_map, Option.map_eq_some'] at h ⊢
    obtain ⟨r1, hr1, rfl⟩ := h
    exact ⟨r1, mainLoop_mono_le _ _ hle hr1, rfl⟩

theorem mainLoop_total (body : Nat → Int → Flow × List Event) {stp : Nat} (h64 : stp < 2 ^ 64) :
    ∀ n i e fuel, (i = 0 ∨ stp ≤ i) → 2 ^ 32 ≤ i + n * stp → n < fuel →
      ∃ r, mainLoop body stp fuel i e = some r := by
  intro n
  induction n with
  | zero =>
    intro i e fuel _ hi hf
    obtain ⟨m, rfl⟩ : ∃ m, fuel = m + 1 := ⟨fuel - 1, by omega⟩
    rw [mainLoop]
    have : ¬ i < 2 ^ 32 := by omega
    rw [if_neg this]
    exact ⟨_, rfl⟩
  | succ n ih =>
    intro i e fuel h0 hi hf
    obtain ⟨m, rfl⟩ : ∃ m, fuel = m + 1 := ⟨fuel - 1, by omega⟩
    rw [mainLoop]
    split_ifs with hlt
    · rcases hbody : body i e with ⟨fl, tr⟩
      cases fl with
      | next e1 =>
        have hwrap : (i + stp) % 2 ^ 64 = i + stp := by
          apply Nat.mod_eq_of_lt
          rcases h0 with h0 | h0 <;> omega
        have hi2 : 2 ^ 32 ≤ i + stp + n * stp := by
          have : (n + 1) * stp = n * stp + stp := by ring
          omega
        obtain ⟨r1, hr1⟩ := ih (i + stp) e1 m (Or.inr (by omega)) hi2 (by omega)
        simp only [hwrap, hr1, Option.map_some']
        exact ⟨_, rfl⟩
      | brk e1 => exact ⟨_, rfl⟩
      | exit e1 => exact ⟨_, rfl⟩
      | ret e1 => exact ⟨_, rfl⟩
    · exact ⟨_, rfl⟩

theorem testFunc_total (f : Func) (cfg : Config) (relaxedMode : Bool) (b : Backend)
    (hstep : 0 < step cfg) {fuel : Nat} (hfuel : 2 ^ 32 < fuel) :
    ∃ r, TestFunc_Int_Double f cfg relaxedMode b fuel = some r := by
  have h64 : step cfg < 2 ^ 64 := Nat.mod_lt _ (by norm_num)
  have hn : 2 ^ 32 ≤ 0 + 2 ^ 32 * step cfg := by
    have := Nat.mul_le_mul_left (2 ^ 32) hstep
    omega
  obtain ⟨r1, hr1⟩ := mainLoop_total (loopBody f cfg relaxedMode b) h64 (2 ^ 32) 0
    (b.ret Op.build) fuel (Or.inl rfl) hn hfuel
  unfold TestFunc_Int_Double buildAndLoop
  split_ifs with hc
  · exact ⟨_, rfl⟩
  · simp only [hr1, Option.map_some']
    exact ⟨_, rfl⟩

/-! ## The verifier inside a run -/

theorem verShape_closed (f : Func) (cfg : Config) (relaxedMode : Bool) (b : Backend) :
    SeqClosed (VerShape f cfg relaxedMode b) := by
  refine ⟨fun e => ⟨by simp, by simp, by simp⟩, ?_⟩
  rintro ⟨fl, tr⟩ g ha hg
  cases fl with
  | next e =>
    rw [seq_next]
    obtain ⟨a1, a2, a3⟩ := ha
    obtain ⟨g1, g2, g3⟩ := hg e
    refine ⟨?_, ?_, ?_⟩
    · intro i j k hmem
      rcases List.mem_append.1 hmem with h | h
      · exact a1 i j k h
      · exact g1 i j k h
    · intro i j k err hmem
      rcases List.mem_append.1 hmem with h | h
      · exact a2 i j k err h
      · exact g2 i j k err h
    · intro i j k hmem hrej
      rcases List.mem_append.1 hmem with h | h
      · exact absurd (a3 i j k h hrej).1 (by simp)
      · obtain ⟨h1, pre, err, h2⟩ := g3 i j k h hrej
        refine ⟨h1, tr ++ pre, err, ?_⟩
        show tr ++ (g e).2 = _
        rw [h2, List.append_assoc]
  | brk e => exact ha
  | exit e => exact ha
  | ret e => exact ha

theorem abortShape_closed (f : Func) (cfg : Config) (relaxedMode : Bool) (b : Backend) :
    SeqClosed (AbortShape f cfg relaxedMode b) := by
  refine ⟨fun e i h => by simp at h, ?_⟩
  rintro ⟨fl, tr⟩ g ha hg
  cases fl with
  | next e =>
    rw [seq_next]
    intro i hcmp hrej
    obtain ⟨j, k, hmem⟩ := hcmp
    rcases List.mem_append.1 hmem with h | h
    · exact absurd (ha i ⟨j, k, h⟩ hrej) (by simp)
    · exact hg e i ⟨j, k, h⟩ hrej
  | brk e => exact ha
  | exit e => exact ha
  | ret e => exact ha

theorem nextOrExit_closed (c : Int) : SeqClosed (NextOrExit c) := by
  refine ⟨fun e => Or.inr ⟨e, rfl⟩, ?_⟩
  rintro ⟨fl, tr⟩ g ha hg
  cases fl with
  | next e => rw [seq_next]; exact hg e
  | brk e => exact ha
  | exit e => exact ha
  | ret e => exact ha

theorem comparesOf_closed (i : Nat) : SeqClosed (ComparesOf i) := by
  refine ⟨fun e => by simp [ComparesOf], ?_⟩
  rintro ⟨fl, tr⟩ g ha hg
  cases fl with
  | next e =>
    rw [seq_next]
    intro i1 j k hmem
    rcases List.mem_append.1 hmem with h | h
    · exact ha i1 j k h
    · exact hg e i1 j k h
  | brk e => exact ha
  | exit e => exact ha
  | ret e => exact ha

theorem forEach_exit {α : Type} (body : α → Int → Flow × List Event) (c : Int) :
    ∀ (xs : List α), (∀ x ∈ xs, ∀ e, NextOrExit c (body x e)) →
      (∃ x ∈ xs, ∀ e, (body x e).1 = Flow.exit c) → ∀ e, (forEach body xs e).1 = Flow.exit c := by
  intro xs
  induction xs with
  | nil => rintro _ ⟨x, hx, _⟩; cases hx
  | cons y ys ih =>
    rintro hall ⟨x, hx, hexit⟩ e
    show (seq (body y e) (forEach body ys)).1 = _
    rcases hy : body y e with ⟨fl, tr⟩
    have hne := hall y (List.mem_cons_self _ _) e
    rw [hy] at hne
    rcases hne with h | ⟨e1, h⟩
    · simp only at h
      subst h
      rfl
    · simp only at h
      subst h
      rw [seq_next]
      rcases List.mem_cons.1 hx with rfl | hx1
      · have := hexit e
        rw [hy] at this
        cases this
      · exact ih (fun z hz => hall z (List.mem_cons_of_mem _ hz)) ⟨x, hx1, hexit⟩ e1

theorem verifyOne_nextOrExit (f : Func) (cfg : Config) (relaxedMode : Bool) (b : Backend)
    (i j k : Nat) (e : Int) : NextOrExit (-1) (verifyOne f cfg relaxedMode b i j k e) := by
  unfold verifyOne
  split
  · exact Or.inr ⟨e, rfl⟩
  · exact Or.inl rfl

theorem verifyOne_exit {f : Func} {cfg : Config} {relaxedMode : Bool} {b : Backend}
    {i j k : Nat} (h : laneVerdict f cfg relaxedMode b i j k ≠ none) (e : Int) :
    (verifyOne f cfg relaxedMode b i j k e).1 = Flow.exit (-1) := by
  unfold verifyOne
  split
  · rename_i heq; exact absurd heq h
  · rfl

theorem verify_exit {f : Func} {cfg : Config} {relaxedMode : Bool} {b : Backend} {i j k : Nat}
    (hj : j < batchSize cfg) (hk : k ∈ widths cfg)
    (h : laneVerdict f cfg relaxedMode b i j k ≠ none) (e : Int) :
    (verify f cfg relaxedMode b i e).1 = Flow.exit (-1) := by
  unfold verify
  refine forEach_exit _ (-1) _ ?_ ⟨j, List.mem_range.2 hj, ?_⟩ e
  · intro j1 _ e1
    exact forEach_closed (nextOrExit_closed (-1)) _ _
      (fun k1 _ e2 => verifyOne_nextOrExit f cfg relaxedMode b i j1 k1 e2) e1
  · intro e1
    exact forEach_exit _ (-1) _ (fun k1 _ e2 => verifyOne_nextOrExit f cfg relaxedMode b i j k1 e2)
      ⟨k, hk, verifyOne_exit h⟩ e1

theorem verify_comparesOf (f : Func) (cfg : Config) (relaxedMode : Bool) (b : Backend)
    (i : Nat) (e : Int) : ComparesOf i (verify f cfg relaxedMode b i e) := by
  unfold verify
  refine forEach_closed (comparesOf_closed i) _ _ (fun j _ e1 => ?_) e
  refine forEach_closed (comparesOf_closed i) _ _ (fun k _ e2 => ?_) e1
  unfold verifyOne
  split <;> simp [ComparesOf] <;> (intro _ _ _ h _ _; exact h)

theorem verify_verShape (f : Func) (cfg : Config) (relaxedMode : Bool) (b : Backend)
    (i : Nat) (e : Int) : VerShape f cfg relaxedMode b (verify f cfg relaxedMode b i e) := by
  unfold verify
  refine forEach_closed (verShape_closed f cfg relaxedMode b) _ _ (fun j hj e1 => ?_) e
  refine forEach_closed (verShape_closed f cfg relaxedMode b) _ _ (fun k hk e2 => ?_) e1
  have hj1 : j < batchSize cfg := List.mem_range.1 hj
  unfold verifyOne
  split
  · rename_i heq
    refine ⟨?_, ?_, ?_⟩
    · intro i1 j1 k1 hmem
      simp only [List.mem_singleton, Event.compare.injEq] at hmem
      obtain ⟨-, rfl, rfl⟩ := hmem
      exact ⟨hj1, hk⟩
    · intro i1 j1 k1 err hmem
      simp at hmem
    · intro i1 j1 k1 hmem hrej
      simp only [List.mem_singleton, Event.compare.injEq] at hmem
      obtain ⟨rfl, rfl, rfl⟩ := hmem
      exact absurd heq hrej
  · rename_i err heq
    refine ⟨?_, ?_, ?_⟩
    · intro i1 j1 k1 hmem
      simp only [List.mem_cons, Event.compare.injEq, List.mem_singleton, reduceCtorEq,
        or_false, List.not_mem_nil] at hmem
      obtain ⟨-, rfl, rfl⟩ := hmem
      exact ⟨hj1, hk⟩
    · intro i1 j1 k1 err1 hmem
      simp only [List.mem_cons, reduceCtorEq, Event.mismatch.injEq, List.mem_singleton,
        false_or, List.not_mem_nil, or_false] at hmem
      obtain ⟨rfl, rfl, rfl, rfl⟩ := hmem
      exact heq
    · intro i1 j1 k1 hmem _
      simp only [List.mem_cons, Event.compare.injEq, List.mem_singleton, reduceCtorEq,
        or_false, List.not_mem_nil] at hmem
      obtain ⟨rfl, rfl, rfl⟩ := hmem
      exact ⟨rfl, [], err, rfl⟩

theorem verify_abortShape (f : Func) (cfg : Config) (relaxedMode : Bool) (b : Backend)
    (i : Nat) (e : Int) : AbortShape f cfg relaxedMode b (verify f cfg relaxedMode b i e) := by
  rintro i1 ⟨j, k, hmem⟩ ⟨j1, k1, hj1, hk1, hrej⟩
  have : i1 = i := verify_comparesOf f cfg relaxedMode b i e i1 j k hmem
  subst this
  exact verify_exit hj1 hk1 hrej e

theorem verShape_of_plain (f : Func) (cfg : Config) (relaxedMode : Bool) (b : Backend)
    {a : Flow × List Event} (h : ∀ ev ∈ a.2, Event.isVerify ev = false) :
    VerShape f cfg relaxedMode b a :=
  ⟨fun i j k hmem => by simpa [Event.isVerify] using h _ hmem,
   fun i j k err hmem => by simpa [Event.isVerify] using h _ hmem,
   fun i j k hmem => by simpa [Event.isVerify] using h _ hmem⟩

theorem abortShape_of_plain (f : Func) (cfg : Config) (relaxedMode : Bool) (b : Backend)
    {a : Flow × List Event} (h : ∀ ev ∈ a.2, Event.isVerify ev = false) :
    AbortShape f cfg relaxedMode b a := by
  rintro i ⟨j, k, hmem⟩ _
  simpa [Event.isVerify] using h _ hmem

theorem plain_callOrExit (b : Backend) (o : Op) (diag : List Event) (e : Int)
    (hd : ∀ ev ∈ diag, Event.isVerify ev = false) :
    ∀ ev ∈ (callOrExit b o diag e).2, Event.isVerify ev = false := by
  unfold callOrExit
  split_ifs <;> intro ev hev <;> simp only [List.mem_cons, List.not_mem_nil, or_false] at hev
  · rcases hev with rfl | h
    · rfl
    · exact hd ev h
  · subst hev; rfl

theorem plain_callOrReturn (b : Backend) (o : Op) (diag : List Event) (e : Int)
    (hd : ∀ ev ∈ diag, Event.isVerify ev = false) :
    ∀ ev ∈ (callOrReturn b o diag e).2, Event.isVerify ev = false := by
  unfold callOrReturn
  split_ifs <;> intro ev hev <;> simp only [List.mem_cons, List.not_mem_nil, or_false] at hev
  · rcases hev with rfl | h
    · rfl
    · exact hd ev h
  · subst hev; rfl

theorem plain_callLogged (b : Backend) (o : Op) (diag : List Event) (e : Int)
    (hd : ∀ ev ∈ diag, Event.isVerify ev = false) :
    ∀ ev ∈ (callLogged b o diag e).2, Event.isVerify ev = false := by
  unfold callLogged
  split_ifs <;> intro ev hev <;> simp only [List.mem_cons, List.not_mem_nil, or_false] at hev
  · rcases hev with rfl | h
    · rfl
    · exact hd ev h
  · subst hev; rfl

theorem loopBody_plainClosed {P : Flow × List Event → Prop} (hP : SeqClosed P)
    (hplain : ∀ a : Flow × List Event, (∀ ev ∈ a.2, Event.isVerify ev = false) → P a)
    (f : Func) (cfg : Config) (relaxedMode : Bool) (b : Backend) (i : Nat)
    (hverify : ∀ e, P (verify f cfg relaxedMode b i e)) :
    ∀ e, P (loopBody f cfg relaxedMode b i e) := by
  have hq : ∀ m, ∀ ev ∈ [Event.log m], Event.isVerify ev = false := by
    intro m ev hev; simp at hev; subst hev; rfl
  have hq2 : ∀ k, ∀ ev ∈ [Event.LogBuildError k], Event.isVerify ev = false := by
    intro m ev hev; simp at hev; subst hev; rfl
  refine loopBody_closed hP f cfg relaxedMode b i ?_ ?_ ?_ ?_ ?_ ?_ ?_ ?_ hverify ?_
  · intro e; exact hplain _ (by simp [emit, Event.isVerify])
  · intro e; exact hplain _ (plain_callOrReturn _ _ _ _ (hq _))
  · intro k e _
    exact hP.2 _ _ (hplain _ (by simp [emit, Event.isVerify]))
      (fun e => hplain _ (plain_callOrExit _ _ _ _ (hq _)))
  · intro k e _
    refine hP.2 _ _ (hplain _ (plain_callOrExit _ _ _ _ (hq2 _))) fun e => ?_
    exact hP.2 _ _ (hplain _ (plain_callOrExit _ _ _ _ (hq2 _)))
      (fun e => hplain _ (plain_callOrExit _ _ _ _ (hq _)))
  · intro e; exact hplain _ (plain_callLogged _ _ _ _ (hq _))
  · intro e; exact hplain _ (by simp [emit, Event.isVerify])
  · intro k e _; exact hplain _ (plain_callOrExit _ _ _ _ (hq _))
  · intro e
    refine hplain _ ?_
    unfold skipCheck
    split_ifs <;> simp
  · intro e
    refine hplain _ ?_
    unfold progress
    split_ifs <;> simp [Event.isVerify]

theorem isVerify_of_quiet {ev : Event} (h : Event.quiet ev = true) :
    Event.isVerify ev = false := by
  cases ev <;> simp_all [Event.quiet, Event.isVerify]

theorem finish_mem {cfg : Config} {b : Backend} {a : Flow × List Event} {ev : Event}
    (h : ev ∈ (finish cfg b a).trace) : ev ∈ a.2 ∨ Event.quiet ev = true := by
  rcases a with ⟨fl, tr⟩
  cases fl <;> simp only [finish] at h
  · rw [List.append_assoc] at h
    rcases List.mem_append.1 h with h1 | h1
    · exact Or.inl h1
    · exact Or.inr (epilogue_quiet cfg ev h1)
  · rw [List.append_assoc] at h
    rcases List.mem_append.1 h with h1 | h1
    · exact Or.inl h1
    · exact Or.inr (epilogue_quiet cfg ev h1)
  · rcases List.mem_append.1 h with h1 | h1
    · exact Or.inl h1
    · simp only [List.mem_singleton] at h1
      subst h1
      exact Or.inr rfl
  · exact Or.inl h

theorem run_mem_verify {cfg : Config} {b : Backend} {a : Flow × List Event} {ev : Event}
    (h : ev ∈ Event.DisableFTZ :: Event.Force64BitFPUPrecision :: (finish cfg b a).trace)
    (hv : Event.isVerify ev = true) : ev ∈ a.2 := by
  simp only [List.mem_cons] at h
  rcases h with rfl | rfl | h
  · cases hv
  · cases hv
  · rcases finish_mem h with h1 | h1
    · exact h1
    · rw [isVerify_of_quiet h1] at hv
      cases hv

theorem run_verShape {f : Func} {cfg : Config} {relaxedMode : Bool} {b : Backend} {fuel : Nat}
    {r : Result} (h : TestFunc_Int_Double f cfg relaxedMode b fuel = some r) :
    (∀ i j k, Event.compare i j k ∈ r.trace → j < batchSize cfg ∧ k ∈ widths cfg) ∧
    (∀ i j k err, Event.mismatch i j k err ∈ r.trace →
      laneVerdict f cfg relaxedMode b i j k = some err) ∧
    (∀ i j k, Event.compare i j k ∈ r.trace → laneVerdict f cfg relaxedMode b i j k ≠ none →
      r.status = -1 ∧ ∃ pre err, r.trace =
        pre ++ [Event.compare i j k, Event.mismatch i j k err, Event.RestoreFPState]) ∧
    (∀ i, (∃ j k, Event.compare i j k ∈ r.trace) →
      (∃ j k, j < batchSize cfg ∧ k ∈ widths cfg ∧
        laneVerdict f cfg relaxedMode b i j k ≠ none) → r.status = -1) := by
  obtain ⟨a, ha, rfl⟩ := testFunc_some h
  have hshape : VerShape f cfg relaxedMode b a := by
    refine buildAndLoop_closed (verShape_closed f cfg relaxedMode b) ?_ ?_ ha
    · intro i e
      exact loopBody_plainClosed (verShape_closed f cfg relaxedMode b)
        (fun a h => verShape_of_plain f cfg relaxedMode b h) f cfg relaxedMode b i
        (verify_verShape f cfg relaxedMode b i) e
    · intro e
      exact verShape_of_plain f cfg relaxedMode b (plain_callOrReturn _ _ _ _ (by simp))
  have habort : AbortShape f cfg relaxedMode b a := by
    refine buildAndLoop_closed (abortShape_closed f cfg relaxedMode b) ?_ ?_ ha
    · intro i e
      exact loopBody_plainClosed (abortShape_closed f cfg relaxedMode b)
        (fun a h => abortShape_of_plain f cfg relaxedMode b h) f cfg relaxedMode b i
        (verify_abortShape f cfg relaxedMode b i) e
    · intro e
      exact abortShape_of_plain f cfg relaxedMode b (plain_callOrReturn _ _ _ _ (by simp))
  obtain ⟨s1, s2, s3⟩ := hshape
  refine ⟨?_, ?_, ?_, ?_⟩
  · intro i j k hmem
    exact s1 i j k (run_mem_verify hmem rfl)
  · intro i j k err hmem
    exact s2 i j k err (run_mem_verify hmem rfl)
  · intro i j k hmem hrej
    obtain ⟨h1, pre, err, h2⟩ := s3 i j k (run_mem_verify hmem rfl) hrej
    rcases a with ⟨fl, tr⟩
    simp only at h1 h2
    subst h1
    subst h2
    exact ⟨rfl, Event.DisableFTZ :: Event.Force64BitFPUPrecision :: pre, err, by simp [finish]⟩
  · rintro i ⟨j, k, hmem⟩ hrej
    have h1 := habort i ⟨j, k, run_mem_verify hmem rfl⟩ hrej
    rcases a with ⟨fl, tr⟩
    simp only at h1
    subst h1
    rfl

theorem mem_widths {cfg : Config} {k : Nat} :
    k ∈ widths cfg ↔ cfg.gMinVectorSizeIndex ≤ k ∧ k < cfg.gMaxVectorSizeIndex := by
  unfold widths
  rw [List.mem_range'_1]
  omega

theorem testFunc_stable {f : Func} {cfg : Config} {relaxedMode : Bool} {b : Backend}
    {fuel : Nat} {r : Result} (h : TestFunc_Int_Double f cfg relaxedMode b fuel = some r) :
    (∀ n, fuel ≤ n → TestFunc_Int_Double f cfg relaxedMode b n = some r) ∧
    (0 < step cfg → ∀ n, 2 ^ 32 < n → TestFunc_Int_Double f cfg relaxedMode b n = some r) := by
  refine ⟨fun n hn => testFunc_mono hn h, fun hstep n hn => ?_⟩
  obtain ⟨r1, hr1⟩ := testFunc_total f cfg relaxedMode b hstep hn
  have h1 := testFunc_mono (Nat.le_max_left fuel n) h
  have h2 := testFunc_mono (Nat.le_max_right fuel n) hr1
  rw [h1] at h2
  rw [hr1, Option.some.inj h2]

theorem ulpErr_abs {t q : Nat} (ht : t < 2 ^ 32) (hq : q < 2 ^ 32) :
    (ulpErr t q : Int) = |(t : Int) - (q : Int)| := by
  rcases Nat.lt_or_ge t q with h | h
  · rw [ulpErr_of_lt hq h, abs_of_neg (by omega)]
    omega
  · rw [ulpErr_of_le ht h, abs_of_nonneg (by omega)]
    omega

/-! ## Input generation inside a run -/

theorem allEvents_closed (p : Event → Prop) : SeqClosed (AllEvents p) := by
  refine ⟨fun e ev h => (by cases h), ?_⟩
  rintro ⟨fl, tr⟩ g ha hg
  cases fl with
  | next e =>
    rw [seq_next]
    intro ev hev
    rcases List.mem_append.1 hev with h | h
    · exact ha ev h
    · exact hg e ev h
  | brk e => exact ha
  | exit e => exact ha
  | ret e => exact ha

theorem allEvents_callOrExit {p : Event → Prop} (b : Backend) (o : Op) (diag : List Event)
    (e : Int) (ho : p (Event.call o (b.ret o))) (hd : ∀ ev ∈ diag, p ev) :
    AllEvents p (callOrExit b o diag e) := by
  unfold callOrExit
  split_ifs <;> intro ev hev <;> simp only [List.mem_cons, List.not_mem_nil, or_false] at hev
  · rcases hev with rfl | h
    · exact ho
    · exact hd ev h
  · subst hev; exact ho

theorem buildAndLoop_events (p : Event → Prop) {f : Func} {cfg : Config}
    {relaxedMode : Bool} {b : Backend}
    (hcall : ∀ o, p (Event.call o (b.ret o))) (hlog : ∀ m, p (Event.log m))
    (hlbe : ∀ k, p (Event.LogBuildError k)) (hmemset : ∀ i k, p (Event.memset i k))
    (horacle : ∀ i, p (Event.oracle i)) (hfill : ∀ i, p (Event.fill i (batchBits cfg i)))
    (hcmp : ∀ i j k, p (Event.compare i j k)) (hmis : ∀ i j k err, p (Event.mismatch i j k err))
    {fuel : Nat} {a : Flow × List Event}
    (ha : buildAndLoop f cfg relaxedMode b fuel = some a) : AllEvents p a := by
  have hc := allEvents_closed p
  have hlog1 : ∀ m, ∀ ev ∈ [Event.log m], p ev := by
    intro m ev hev; simp at hev; subst hev; exact hlog m
  have hlbe1 : ∀ k, ∀ ev ∈ [Event.LogBuildError k], p ev := by
    intro m ev hev; simp at hev; subst hev; exact hlbe m
  have hret : ∀ o diag e, (∀ ev ∈ diag, p ev) → AllEvents p (callOrReturn b o diag e) := by
    intro o diag e hd
    unfold callOrReturn
    split_ifs <;> intro ev hev <;> simp only [List.mem_cons, List.not_mem_nil, or_false] at hev
    · rcases hev with rfl | h
      · exact hcall o
      · exact hd ev h
    · subst hev; exact hcall o
  refine buildAndLoop_closed hc ?_ (fun e => hret _ _ e (by simp)) ha
  · intro i e
    refine loopBody_closed hc f cfg relaxedMode b i ?_ ?_ ?_ ?_ ?_ ?_ ?_ ?_ ?_ ?_ e
    · intro e ev hev
      simp only [emit, List.mem_singleton] at hev
      subst hev; exact hfill i
    · intro e; exact hret _ _ e (hlog1 _)
    · intro k e _
      refine hc.2 _ _ ?_ (fun e => allEvents_callOrExit _ _ _ e (hcall _) (hlog1 _))
      intro ev hev
      simp only [emit, List.mem_singleton] at hev
      subst hev; exact hmemset i k
    · intro k e _
      refine hc.2 _ _ (allEvents_callOrExit _ _ _ e (hcall _) (hlbe1 _)) fun e => ?_
      exact hc.2 _ _ (allEvents_callOrExit _ _ _ e (hcall _) (hlbe1 _))
        (fun e => allEvents_callOrExit _ _ _ e (hcall _) (hlog1 _))
    · intro e
      unfold callLogged
      split_ifs <;> intro ev hev <;>
        simp only [List.mem_cons, List.not_mem_nil, or_false, List.mem_singleton] at hev
      · rcases hev with rfl | rfl
        · exact hcall _
        · exact hlog _
      · subst hev; exact hcall _
    · intro e ev hev
      simp only [emit, List.mem_singleton] at hev
      subst hev; exact horacle i
    · intro k e _; exact allEvents_callOrExit _ _ _ e (hcall _) (hlog1 _)
    · intro e
      unfold skipCheck
      split_ifs <;> intro ev hev <;> cases hev
    · intro e
      refine forEach_closed hc _ _ (fun j _ e1 => ?_) e
      refine forEach_closed hc _ _ (fun k _ e2 => ?_) e1
      unfold verifyOne
      split <;> intro ev hev <;>
        simp only [List.mem_cons, List.not_mem_nil, or_false, List.mem_singleton] at hev
      · subst hev; exact hcmp _ _ _
      · rcases hev with rfl | rfl
        · exact hcmp _ _ _
        · exact hmis _ _ _ _
    · intro e
      unfold progress
      split_ifs <;> intro ev hev <;>
        simp only [List.mem_cons, List.not_mem_nil, or_false, List.mem_singleton] at hev
      · subst hev; exact hlog _
      · subst hev; exact hlog _

theorem run_events (p : Event → Prop) {f : Func} {cfg : Config} {relaxedMode : Bool}
    {b : Backend} (hfpu : p Event.DisableFTZ ∧ p Event.Force64BitFPUPrecision ∧
      p Event.RestoreFPState)
    (hcall : ∀ o, p (Event.call o (b.ret o))) (hlog : ∀ m, p (Event.log m))
    (hlbe : ∀ k, p (Event.LogBuildError k)) (hmemset : ∀ i k, p (Event.memset i k))
    (horacle : ∀ i, p (Event.oracle i)) (hfill : ∀ i, p (Event.fill i (batchBits cfg i)))
    (hcmp : ∀ i j k, p (Event.compare i j k)) (hmis : ∀ i j k err, p (Event.mismatch i j k err))
    {fuel : Nat} {r : Result} (h : TestFunc_Int_Double f cfg relaxedMode b fuel = some r) :
    ∀ ev ∈ r.trace, p ev := by
  obtain ⟨a, ha, rfl⟩ := testFunc_some h
  have hall := buildAndLoop_events p hcall hlog hlbe hmemset horacle hfill hcmp hmis ha
  intro ev hev
  simp only [List.mem_cons] at hev
  rcases hev with rfl | rfl | hev
  · exact hfpu.1
  · exact hfpu.2.1
  · rcases finish_mem hev with h1 | h1
    · exact hall ev h1
    · cases ev <;> simp_all [Event.quiet]

theorem run_fill_shape {f : Func} {cfg : Config} {relaxedMode : Bool} {b : Backend}
    {fuel : Nat} {r : Result} (h : TestFunc_Int_Double f cfg relaxedMode b fuel = some r)
    {i : Nat} {bits : List Nat} (hmem : Event.fill i bits ∈ r.trace) :
    bits = batchBits cfg i := by
  have := run_events (fun ev => ∀ i bits, ev = Event.fill i bits → bits = batchBits cfg i)
    (by simp) (by simp) (by simp) (by simp) (by simp) (by simp)
    (by intro i1 i2 bits h; simp only [Event.fill.injEq] at h; rw [← h.2, h.1])
    (by simp) (by simp) h _ hmem
  exact this i bits rfl

theorem fills_append (a b : List Event) : fills (a ++ b) = fills a ++ fills b := by
  induction a with
  | nil => rfl
  | cons x xs ih => cases x <;> simp [fills, ih]

theorem mem_fills {tr : List Event} {i : Nat} {bits : List Nat} :
    (i, bits) ∈ fills tr ↔ Event.fill i bits ∈ tr := by
  induction tr with
  | nil => simp [fills]
  | cons x xs ih => cases x <;> simp [fills, ih]

/-! ## Runs that are not cut short -/

theorem fillFree_closed : SeqClosed FillFree := by
  refine ⟨fun e => ⟨⟨e, rfl⟩, rfl⟩, ?_⟩
  rintro ⟨fl, tr⟩ g ⟨⟨e, he⟩, hf⟩ hg
  simp only at he hf
  subst he
  rw [seq_next]
  obtain ⟨h1, h2⟩ := hg e
  exact ⟨h1, by rw [fills_append, hf, h2]; rfl⟩

theorem fillFree_callOrExit (b : Backend) (o : Op) (h : b.ret o = 0) (diag : List Event)
    (e : Int) : FillFree (callOrExit b o diag e) := by
  unfold callOrExit
  rw [if_neg (by simp [h])]
  exact ⟨⟨_, rfl⟩, rfl⟩

theorem loopBody_clean {f : Func} {cfg : Config} {relaxedMode : Bool} {b : Backend}
    (hskip : cfg.gSkipCorrectnessTesting = false)
    (hops : ∀ o, o.fatal = true → b.ret o = 0)
    (hacc : ∀ i j k, j < batchSize cfg → k ∈ widths cfg →
      laneVerdict f cfg relaxedMode b i j k = none) (i : Nat) (e : Int) :
    ∃ e1 tr, loopBody f cfg relaxedMode b i e = (Flow.next e1, tr) ∧
      fills tr = [(i, batchBits cfg i)] := by
  have hc := fillFree_closed
  have hrest : FillFree
      (seq (callOrReturn b (Op.writeIn i) [Event.log Msg.writeError] e) fun error =>
        seq (forEach (writeGarbage b i) (widths cfg) error) fun error =>
        seq (forEach (runKernel b i) (widths cfg) error) fun error =>
        seq (callLogged b (Op.flush i) [Event.log Msg.flushFailed] error) fun error =>
        seq (emit [Event.oracle i] error) fun error =>
        seq (forEach (readBack b i) (widths cfg) error) fun error =>
        seq (skipCheck cfg error) fun error =>
        seq (verify f cfg relaxedMode b i error) (progress cfg i)) := by
    refine hc.2 _ _ ?_ fun e => ?_
    · unfold callOrReturn
      rw [if_neg (by simp [hops (Op.writeIn i) rfl])]
      exact ⟨⟨_, rfl⟩, rfl⟩
    refine hc.2 _ _ (forEach_closed hc _ _ (fun k _ e => ?_) e) fun e => ?_
    · exact hc.2 _ _ ⟨⟨_, rfl⟩, rfl⟩
        (fun e => fillFree_callOrExit b (Op.writeOut i k) (hops _ rfl) _ e)
    refine hc.2 _ _ (forEach_closed hc _ _ (fun k _ e => ?_) e) fun e => ?_
    · refine hc.2 _ _ (fillFree_callOrExit b (Op.setArg0 i k) (hops _ rfl) _ e) fun e => ?_
      exact hc.2 _ _ (fillFree_callOrExit b (Op.setArg1 i k) (hops _ rfl) _ e)
        (fun e => fillFree_callOrExit b (Op.ndrange i k) (hops _ rfl) _ e)
    refine hc.2 _ _ ?_ fun e => ?_
    · unfold callLogged
      split_ifs <;> exact ⟨⟨_, rfl⟩, rfl⟩
    refine hc.2 _ _ ⟨⟨_, rfl⟩, rfl⟩ fun e => ?_
    refine hc.2 _ _ (forEach_closed hc _ _
      (fun k _ e => fillFree_callOrExit b (Op.read i k) (hops _ rfl) _ e) e) fun e => ?_
    refine hc.2 _ _ ?_ fun e => ?_
    · unfold skipCheck
      rw [hskip]
      exact ⟨⟨_, rfl⟩, rfl⟩
    refine hc.2 _ _ ?_ fun e => ?_
    · refine forEach_closed hc _ _ (fun j hj e1 => ?_) e
      refine forEach_closed hc _ _ (fun k hk e2 => ?_) e1
      unfold verifyOne
      rw [hacc i j k (List.mem_range.1 hj) hk]
      exact ⟨⟨_, rfl⟩, rfl⟩
    · unfold progress
      split_ifs <;> exact ⟨⟨_, rfl⟩, rfl⟩
  obtain ⟨⟨e1, h1⟩, h2⟩ := hrest
  refine ⟨e1, ?_, ?_, ?_⟩
  · exact [Event.fill i (batchBits cfg i)] ++ (seq (callOrReturn b (Op.writeIn i)
      [Event.log Msg.writeError] e) fun error =>
        seq (forEach (writeGarbage b i) (widths cfg) error) fun error =>
        seq (forEach (runKernel b i) (widths cfg) error) fun error =>
        seq (callLogged b (Op.flush i) [Event.log Msg.flushFailed] error) fun error =>
        seq (emit [Event.oracle i] error) fun error =>
        seq (forEach (readBack b i) (widths cfg) error) fun error =>
        seq (skipCheck cfg error) fun error =>
        seq (verify f cfg relaxedMode b i error) (progress cfg i)).2
  · unfold loopBody
    rw [emit, seq_next, h1]
  · rw [fills_append, h2]
    rfl

theorem lt_iterations {stp : Nat} (hstp : 0 < stp) (m : Nat) :
    m < iterations stp ↔ m * stp < 2 ^ 32 := by
  unfold iterations
  rw [Nat.lt_iff_add_one_le, Nat.le_div_iff_mul_le hstp]
  have : (m + 1) * stp = m * stp + stp := by ring
  omega

theorem mainLoop_clean (body : Nat → Int → Flow × List Event) {stp : Nat} (hstp : 0 < stp)
    (h64 : stp < 2 ^ 64) (gen : Nat → List Nat)
    (hbody : ∀ i e, ∃ e1 tr, body i e = (Flow.next e1, tr) ∧ fills tr = [(i, gen i)]) :
    ∀ d m fuel e, m + d = iterations stp → d < fuel →
      ∃ e1 tr, mainLoop body stp fuel (m * stp) e = some (Flow.next e1, tr) ∧
        fills tr = (List.range' m d).map fun m1 => (m1 * stp, gen (m1 * stp)) := by
  intro d
  induction d with
  | zero =>
    intro m fuel e hm hf
    obtain ⟨n, rfl⟩ : ∃ n, fuel = n + 1 := ⟨fuel - 1, by omega⟩
    have hge : ¬ m * stp < 2 ^ 32 := by
      rw [← lt_iterations hstp]
      omega
    rw [mainLoop, if_neg hge]
    exact ⟨e, [], rfl, rfl⟩
  | succ d ih =>
    intro m fuel e hm hf
    obtain ⟨n, rfl⟩ : ∃ n, fuel = n + 1 := ⟨fuel - 1, by omega⟩
    have hlt : m * stp < 2 ^ 32 := by
      rw [← lt_iterations hstp]
      omega
    obtain ⟨e1, tr1, hb, hf1⟩ := hbody (m * stp) e
    have hnext : (m * stp + stp) % 2 ^ 64 = (m + 1) * stp := by
      have h1 : (m + 1) * stp = m * stp + stp := by ring
      rw [h1]
      apply Nat.mod_eq_of_lt
      rcases Nat.eq_zero_or_pos m with h0 | h0
      · subst h0; omega
      · have : stp ≤ m * stp := Nat.le_mul_of_pos_left stp h0
        omega
    obtain ⟨e2, tr2, hr, hf2⟩ := ih (m + 1) n e1 (by omega) (by omega)
    rw [mainLoop, if_pos hlt, hb]
    simp only [hnext, hr, Option.map_some']
    refine ⟨e2, tr1 ++ tr2, rfl, ?_⟩
    rw [fills_append, hf1, hf2, List.range'_succ]
    rfl

theorem iterations_le {stp : Nat} (hstp : 0 < stp) : iterations stp ≤ 2 ^ 32 := by
  by_contra h
  have h1 : (2 ^ 32 : Nat) < iterations stp := by omega
  have h2 := (lt_iterations hstp (2 ^ 32)).1 h1
  have h3 : 2 ^ 32 * 1 ≤ 2 ^ 32 * stp := Nat.mul_le_mul_left _ hstp
  omega

theorem run_clean {f : Func} {cfg : Config} {relaxedMode : Bool} {b : Backend}
    (hstep : 0 < step cfg)
    (hskip : cfg.gSkipCorrectnessTesting = false)
    (hops : ∀ o, o.fatal = true → b.ret o = 0)
    (hacc : ∀ i j k, j < batchSize cfg → k ∈ widths cfg →
      laneVerdict f cfg relaxedMode b i j k = none)
    {fuel : Nat} (hfuel : 2 ^ 32 < fuel) :
    ∃ r, TestFunc_Int_Double f cfg relaxedMode b fuel = some r ∧
      fills r.trace = (List.range (iterations (step cfg))).map
        fun m => (m * step cfg, batchBits cfg (m * step cfg)) := by
  have h64 : step cfg < 2 ^ 64 := Nat.mod_lt _ (by norm_num)
  have hit := iterations_le hstep
  obtain ⟨e1, tr, hr, hf⟩ := mainLoop_clean (loopBody f cfg relaxedMode b) hstep h64
    (batchBits cfg) (loopBody_clean hskip hops hacc) (iterations (step cfg)) 0 fuel
    (b.ret Op.build) (by omega) (by omega)
  rw [Nat.zero_mul] at hr
  have hb : ¬ b.ret Op.build ≠ 0 := by simp [hops Op.build rfl]
  refine ⟨{ status := e1, mode := b.mode,
            trace := Event.DisableFTZ :: Event.Force64BitFPUPrecision ::
              (Event.call Op.build (b.ret Op.build) :: tr ++ epilogue cfg ++
                [Event.RestoreFPState]) }, ?_, ?_⟩
  · unfold TestFunc_Int_Double buildAndLoop
    rw [if_neg hb, hr]
    rfl
  · have he : fills (epilogue cfg) = [] := by
      unfold epilogue
      split_ifs <;> rfl
    show fills ([Event.DisableFTZ, Event.Force64BitFPUPrecision,
      Event.call Op.build (b.ret Op.build)] ++ tr ++ epilogue cfg ++ [Event.RestoreFPState]) = _
    rw [fills_append, fills_append, fills_append, hf, he, List.range_eq_range']
    simp [fills]

/-! ## Index arithmetic -/

theorem inputBits_exhaustive {cfg : Config} (hw : cfg.gWimpyMode = false) (i j : Nat) :
    inputBits cfg i j = (i + j) % 2 ^ 32 := by
  unfold inputBits
  rw [hw]
  simp only [Bool.false_eq_true, if_false]
  rw [Nat.mod_mod_of_dvd _ (by norm_num : 2 ^ 32 ∣ 2 ^ 64)]
  omega

theorem batchBits_exhaustive {cfg : Config} (hw : cfg.gWimpyMode = false) (i : Nat) :
    batchBits cfg i = (List.range (cfg.BUFFER_SIZE / 8)).map fun j => (i + j) % 2 ^ 32 := by
  unfold batchBits batchSize
  exact List.map_congr_left fun j _ => inputBits_exhaustive hw i j

theorem flatten_batches (stp M : Nat) : ∀ d m,
    ((List.range' m d).map fun m1 => (List.range stp).map fun j => (m1 * stp + j) % M).flatten =
      (List.range' (m * stp) (d * stp)).map fun x => x % M := by
  intro d
  induction d with
  | zero => intro m; simp
  | succ d ih =>
    intro m
    have h1 : (d + 1) * stp = d * stp + stp := by ring
    have h2 : m * stp + 1 * stp = (m + 1) * stp := by ring
    rw [List.range'_succ, List.map_cons, List.flatten_cons, ih (m + 1), h1,
      ← List.range'_append (m * stp) stp (d * stp) 1, h2, List.map_append,
      List.range'_eq_map_range (m * stp) stp, List.map_map]
    rfl

theorem iterations_mul_ge {stp : Nat} (hstp : 0 < stp) : 2 ^ 32 ≤ iterations stp * stp := by
  by_contra h
  have := (lt_iterations hstp (iterations stp)).2 (by omega)
  omega

theorem iterations_mul_lt {stp : Nat} (hstp : 0 < stp) (h64 : stp < 2 ^ 64) :
    iterations stp * stp < 2 ^ 64 := by
  have hpos : 0 < iterations stp := by
    rcases Nat.eq_zero_or_pos (iterations stp) with h | h
    · have := iterations_mul_ge hstp
      rw [h] at this
      omega
    · exact h
  obtain ⟨n, hn⟩ : ∃ n, iterations stp = n + 1 := ⟨iterations stp - 1, by omega⟩
  have hlt := (lt_iterations hstp n).1 (by omega)
  have h1 : (n + 1) * stp = n * stp + stp := by ring
  rw [hn, h1]
  rcases Nat.eq_zero_or_pos n with h0 | h0
  · subst h0; omega
  · have : stp ≤ n * stp := Nat.le_mul_of_pos_left stp h0
    omega

theorem iterations_of_dvd {stp : Nat} (hstp : 0 < stp) (hdvd : stp ∣ 2 ^ 32) :
    iterations stp = 2 ^ 32 / stp ∧ iterations stp * stp = 2 ^ 32 := by
  obtain ⟨q, hq⟩ := hdvd
  have hq1 : 2 ^ 32 / stp = q := by
    rw [hq]
    exact Nat.mul_div_cancel_left q hstp
  have hge := iterations_mul_ge hstp
  have hN : iterations stp = q := by
    apply le_antisymm
    · by_contra h
      have := (lt_iterations hstp q).1 (by omega)
      rw [Nat.mul_comm] at this
      omega
    · by_contra h
      have h2 : iterations stp + 1 ≤ q := by omega
      have h3 := Nat.mul_le_mul_right stp h2
      have h4 : (iterations stp + 1) * stp = iterations stp * stp + stp := by ring
      rw [Nat.mul_comm q stp, ← hq] at h3
      omega
  refine ⟨by rw [hN, hq1], ?_⟩
  rw [hN, Nat.mul_comm, ← hq]

theorem exactBackend_accepts (f : Func) (cfg : Config) (relaxedMode : Bool) (i j k : Nat) :
    verifyLane f cfg relaxedMode (input cfg i j) (toUInt32 (f.i_f (input cfg i j)))
      (actual (exactBackend f cfg) i j k) = none := by
  have h : actual (exactBackend f cfg) i j k = toUInt32 (f.i_f (input cfg i j)) :=
    Nat.mod_eq_of_lt (toUInt32_lt _)
  rw [h]
  simp [verifyLane]

theorem scale_eq {cfg : Config} (hsize : 8 ≤ cfg.BUFFER_SIZE) :
    2 ^ 32 / (16 * cfg.BUFFER_SIZE / 8) ≤ 2 ^ 28 ∧
    scale cfg = ((2 ^ 32 / (16 * cfg.BUFFER_SIZE / 8) + 1 : Nat) : Int) ∧
    toSizeT (scale cfg) = 2 ^ 32 / (16 * cfg.BUFFER_SIZE / 8) + 1 := by
  have h16 : 16 ≤ 16 * cfg.BUFFER_SIZE / 8 := by omega
  have hD : 2 ^ 32 / (16 * cfg.BUFFER_SIZE / 8) ≤ 2 ^ 32 / 16 :=
    Nat.div_le_div_left h16 (by norm_num)
  have hD1 : 2 ^ 32 / (16 * cfg.BUFFER_SIZE / 8) ≤ 2 ^ 28 := by
    norm_num at hD ⊢
    exact hD
  have hs : scale cfg = ((2 ^ 32 / (16 * cfg.BUFFER_SIZE / 8) + 1 : Nat) : Int) := by
    unfold scale toInt32
    generalize 2 ^ 32 / (16 * cfg.BUFFER_SIZE / 8) = D at hD1 ⊢
    have h1 : (D + 1) % 2 ^ 32 = D + 1 := Nat.mod_eq_of_lt (by omega)
    rw [h1, if_pos (by omega)]
  refine ⟨hD1, hs, ?_⟩
  rw [hs]
  unfold toSizeT
  generalize 2 ^ 32 / (16 * cfg.BUFFER_SIZE / 8) = D at hD1 ⊢
  omega

theorem inputBits_wimpy {cfg : Config} (hw : cfg.gWimpyMode = true)
    (hsize : 8 ≤ cfg.BUFFER_SIZE) (i j : Nat) :
    inputBits cfg i j = (i + j * (2 ^ 32 / (16 * cfg.BUFFER_SIZE / 8) + 1)) % 2 ^ 32 := by
  unfold inputBits
  rw [hw, (scale_eq hsize).2.2]
  simp only [if_true]
  generalize j * (2 ^ 32 / (16 * cfg.BUFFER_SIZE / 8) + 1) = x
  omega

theorem wimpy_offset_lt {cfg : Config} (hsize : 8 ≤ cfg.BUFFER_SIZE)
    (hint : 16 * cfg.BUFFER_SIZE < 2 ^ 31) {j : Nat} (hj : j < cfg.BUFFER_SIZE / 8) :
    j * (2 ^ 32 / (16 * cfg.BUFFER_SIZE / 8) + 1) < 2 ^ 32 := by
  have hdiv : 2 ^ 32 / (16 * cfg.BUFFER_SIZE / 8) * (16 * cfg.BUFFER_SIZE / 8) ≤ 2 ^ 32 :=
    Nat.div_mul_le_self _ _
  have hj16 : j * 16 ≤ 16 * cfg.BUFFER_SIZE / 8 := by omega
  have h1 := Nat.mul_le_mul_left (2 ^ 32 / (16 * cfg.BUFFER_SIZE / 8)) hj16
  have h2 : j * (2 ^ 32 / (16 * cfg.BUFFER_SIZE / 8) + 1) =
      j * (2 ^ 32 / (16 * cfg.BUFFER_SIZE / 8)) + j := by ring
  have h3 : 2 ^ 32 / (16 * cfg.BUFFER_SIZE / 8) * (j * 16) =
      16 * (j * (2 ^ 32 / (16 * cfg.BUFFER_SIZE / 8))) := by ring
  rw [h2]
  rw [h3] at h1
  generalize j * (2 ^ 32 / (16 * cfg.BUFFER_SIZE / 8)) = y at h1 ⊢
  generalize 2 ^ 32 / (16 * cfg.BUFFER_SIZE / 8) * (16 * cfg.BUFFER_SIZE / 8) = z at hdiv h1
  omega

theorem add_mod_cancel_of_lt {M i a c : Nat} (ha : a < M) (hc : c < M)
    (h : (i + a) % M = (i + c) % M) : a = c := by
  have h1 : a ≡ c [MOD M] := Nat.ModEq.add_left_cancel' i h
  have h2 : a % M = c % M := h1
  rwa [Nat.mod_eq_of_lt ha, Nat.mod_eq_of_lt hc] at h2

/-! ## Runs with working calls -/

theorem seq_fst_of_eq {a : Flow × List Event} {g : Int → Flow × List Event} {e : Int}
    (ha : a.1 = Flow.next e) : (seq a g).1 = (g e).1 := by
  rcases a with ⟨fl, tr⟩
  simp only at ha
  subst ha
  rfl

theorem seq_fst_of_next {a : Flow × List Event} {g : Int → Flow × List Event} {fl : Flow}
    (ha : ∃ e, a.1 = Flow.next e) (hg : ∀ e, (g e).1 = fl) : (seq a g).1 = fl := by
  obtain ⟨e, he⟩ := ha
  rw [seq_fst_of_eq he]
  exact hg e

theorem seq_fst_of_exit {a : Flow × List Event} {g : Int → Flow × List Event} {c : Int}
    (ha : a.1 = Flow.exit c) : (seq a g).1 = Flow.exit c := by
  rcases a with ⟨fl, tr⟩
  simp only at ha
  subst ha
  rfl

theorem seq_fst_of_brk {a : Flow × List Event} {g : Int → Flow × List Event} {c : Int}
    (ha : a.1 = Flow.brk c) : (seq a g).1 = Flow.brk c := by
  rcases a with ⟨fl, tr⟩
  simp only at ha
  subst ha
  rfl

theorem falls_upload {b : Backend} (hops : ∀ o, o.fatal = true → b.ret o = 0) (i : Nat)
    (e : Int) : ∃ e1, (callOrReturn b (Op.writeIn i) [Event.log Msg.writeError] e).1 =
      Flow.next e1 := by
  unfold callOrReturn
  rw [if_neg (by simp [hops (Op.writeIn i) rfl])]
  exact ⟨_, rfl⟩

theorem falls_garbage {b : Backend} (hops : ∀ o, o.fatal = true → b.ret o = 0) (i : Nat)
    (ws : List Nat) (e : Int) : ∃ e1, (forEach (writeGarbage b i) ws e).1 = Flow.next e1 := by
  refine (forEach_closed fillFree_closed _ _ (fun k _ e => ?_) e).1
  exact fillFree_closed.2 _ _ ⟨⟨_, rfl⟩, rfl⟩
    (fun e => fillFree_callOrExit b (Op.writeOut i k) (hops _ rfl) _ e)

theorem falls_kernels {b : Backend} (hops : ∀ o, o.fatal = true → b.ret o = 0) (i : Nat)
    (ws : List Nat) (e : Int) : ∃ e1, (forEach (runKernel b i) ws e).1 = Flow.next e1 := by
  refine (forEach_closed fillFree_closed _ _ (fun k _ e => ?_) e).1
  refine fillFree_closed.2 _ _ (fillFree_callOrExit b (Op.setArg0 i k) (hops _ rfl) _ e)
    fun e => ?_
  exact fillFree_closed.2 _ _ (fillFree_callOrExit b (Op.setArg1 i k) (hops _ rfl) _ e)
    (fun e => fillFree_callOrExit b (Op.ndrange i k) (hops _ rfl) _ e)

theorem falls_flush (b : Backend) (i : Nat) (e : Int) :
    ∃ e1, (callLogged b (Op.flush i) [Event.log Msg.flushFailed] e).1 = Flow.next e1 := by
  unfold callLogged
  split_ifs <;> exact ⟨_, rfl⟩

theorem readBack_zero {b : Backend} (hops : ∀ o, o.fatal = true → b.ret o = 0) (i k : Nat)
    (e : Int) : (readBack b i k e).1 = Flow.next 0 := by
  unfold readBack callOrExit
  rw [if_neg (by simp [hops (Op.read i k) rfl]), hops (Op.read i k) rfl]

theorem forEach_fst_keep {α : Type} (body : α → Int → Flow × List Event) :
    ∀ (xs : List α), (∀ x ∈ xs, ∀ e, (body x e).1 = Flow.next e) →
      ∀ e, (forEach body xs e).1 = Flow.next e := by
  intro xs
  induction xs with
  | nil => intro _ e; rfl
  | cons x xs ih =>
    intro h e
    show (seq (body x e) (forEach body xs)).1 = _
    rw [seq_fst_of_eq (h x (List.mem_cons_self _ _) e)]
    exact ih (fun y hy => h y (List.mem_cons_of_mem _ hy)) e

theorem forEach_fst_zero {α : Type} (body : α → Int → Flow × List Event) :
    ∀ (xs : List α), xs ≠ [] → (∀ x ∈ xs, ∀ e, (body x e).1 = Flow.next 0) →
      ∀ e, (forEach body xs e).1 = Flow.next 0 := by
  intro xs
  induction xs with
  | nil => intro h; exact absurd rfl h
  | cons x xs ih =>
    intro _ h e
    show (seq (body x e) (forEach body xs)).1 = _
    rw [seq_fst_of_eq (h x (List.mem_cons_self _ _) e)]
    rcases xs with _ | ⟨y, ys⟩
    · rfl
    · exact ih (by simp) (fun z hz => h z (List.mem_cons_of_mem _ hz)) 0

theorem falls_reads {b : Backend} (hops : ∀ o, o.fatal = true → b.ret o = 0) (i : Nat)
    (ws : List Nat) (e : Int) : ∃ e1, (forEach (readBack b i) ws e).1 = Flow.next e1 :=
  (forEach_closed fillFree_closed _ _
    (fun k _ e => fillFree_callOrExit b (Op.read i k) (hops _ rfl) _ e) e).1

theorem loopBody_reject {f : Func} {cfg : Config} {relaxedMode : Bool} {b : Backend}
    (hskip : cfg.gSkipCorrectnessTesting = false)
    (hops : ∀ o, o.fatal = true → b.ret o = 0) {i j k : Nat}
    (hj : j < batchSize cfg) (hk : k ∈ widths cfg)
    (hrej : laneVerdict f cfg relaxedMode b i j k ≠ none) (e : Int) :
    (loopBody f cfg relaxedMode b i e).1 = Flow.exit (-1) := by
  unfold loopBody
  refine seq_fst_of_next ⟨_, rfl⟩ fun e => ?_
  refine seq_fst_of_next (falls_upload hops i e) fun e => ?_
  refine seq_fst_of_next (falls_garbage hops i _ e) fun e => ?_
  refine seq_fst_of_next (falls_kernels hops i _ e) fun e => ?_
  refine seq_fst_of_next (falls_flush b i e) fun e => ?_
  refine seq_fst_of_next ⟨_, rfl⟩ fun e => ?_
  refine seq_fst_of_next (falls_reads hops i _ e) fun e => ?_
  refine seq_fst_of_next ⟨e, by simp [skipCheck, hskip]⟩ fun e => ?_
  exact seq_fst_of_exit (verify_exit hj hk hrej e)

theorem loopBody_nextOrExit {f : Func} {cfg : Config} {relaxedMode : Bool} {b : Backend}
    (hskip : cfg.gSkipCorrectnessTesting = false)
    (hops : ∀ o, o.fatal = true → b.ret o = 0) (i : Nat) (e : Int) :
    NextOrExit (-1) (loopBody f cfg relaxedMode b i e) := by
  have hc := nextOrExit_closed (-1)
  unfold loopBody
  refine hc.2 _ _ (Or.inr ⟨_, rfl⟩) fun e => ?_
  refine hc.2 _ _ (Or.inr (falls_upload hops i e)) fun e => ?_
  refine hc.2 _ _ (Or.inr (falls_garbage hops i _ e)) fun e => ?_
  refine hc.2 _ _ (Or.inr (falls_kernels hops i _ e)) fun e => ?_
  refine hc.2 _ _ (Or.inr (falls_flush b i e)) fun e => ?_
  refine hc.2 _ _ (Or.inr ⟨_, rfl⟩) fun e => ?_
  refine hc.2 _ _ (Or.inr (falls_reads hops i _ e)) fun e => ?_
  refine hc.2 _ _ (Or.inr ⟨e, by simp [skipCheck, hskip]⟩) fun e => ?_
  refine hc.2 _ _ ?_ fun e => ?_
  · unfold verify
    exact forEach_closed hc _ _ (fun j _ e1 => forEach_closed hc _ _
      (fun k _ e2 => verifyOne_nextOrExit f cfg relaxedMode b i j k e2) e1) e
  · unfold progress
    split_ifs <;> exact Or.inr ⟨_, rfl⟩

theorem mainLoop_reject (body : Nat → Int → Flow × List Event) {stp : Nat} (hstp : 0 < stp)
    (h64 : stp < 2 ^ 64) (hbody : ∀ i e, NextOrExit (-1) (body i e)) {m : Nat}
    (hm : m * stp < 2 ^ 32) (hrej : ∀ e, (body (m * stp) e).1 = Flow.exit (-1)) :
    ∀ d m0 fuel e, m0 + d = m → d < fuel →
      ∃ tr, mainLoop body stp fuel (m0 * stp) e = some (Flow.exit (-1), tr) := by
  intro d
  induction d with
  | zero =>
    intro m0 fuel e h0 hf
    obtain ⟨n, rfl⟩ : ∃ n, fuel = n + 1 := ⟨fuel - 1, by omega⟩
    have : m0 = m := by omega
    subst this
    have hr := hrej e
    rcases hb : body (m0 * stp) e with ⟨fl, tr⟩
    rw [hb] at hr
    simp only at hr
    subst hr
    rw [mainLoop, if_pos hm, hb]
    exact ⟨tr, rfl⟩
  | succ d ih =>
    intro m0 fuel e h0 hf
    obtain ⟨n, rfl⟩ : ∃ n, fuel = n + 1 := ⟨fuel - 1, by omega⟩
    have hle : m0 * stp ≤ m * stp := Nat.mul_le_mul_right _ (by omega)
    have hlt : m0 * stp < 2 ^ 32 := by omega
    have hnext : (m0 * stp + stp) % 2 ^ 64 = (m0 + 1) * stp := by
      have h1 : (m0 + 1) * stp = m0 * stp + stp := by ring
      rw [h1]
      apply Nat.mod_eq_of_lt
      rcases Nat.eq_zero_or_pos m0 with hz | hz
      · subst hz; omega
      · have : stp ≤ m0 * stp := Nat.le_mul_of_pos_left stp hz
        omega
    have hne := hbody (m0 * stp) e
    rcases hb : body (m0 * stp) e with ⟨fl, tr⟩
    rw [hb] at hne
    rw [mainLoop, if_pos hlt, hb]
    rcases hne with h | ⟨e1, h⟩
    · simp only at h
      subst h
      exact ⟨tr, rfl⟩
    · simp only at h
      subst h
      obtain ⟨tr2, hr⟩ := ih (m0 + 1) n e1 (by omega) (by omega)
      simp only [hnext, hr, Option.map_some']
      exact ⟨tr ++ tr2, rfl⟩

theorem run_reject {f : Func} {cfg : Config} {relaxedMode : Bool} {b : Backend}
    (hstep : 0 < step cfg) (hskip : cfg.gSkipCorrectnessTesting = false)
    (hops : ∀ o, o.fatal = true → b.ret o = 0) {m j k : Nat}
    (hm : m * step cfg < 2 ^ 32) (hj : j < batchSize cfg) (hk : k ∈ widths cfg)
    (hrej : laneVerdict f cfg relaxedMode b (m * step cfg) j k ≠ none)
    {fuel : Nat} (hfuel : 2 ^ 32 < fuel) :
    ∃ r, TestFunc_Int_Double f cfg relaxedMode b fuel = some r ∧ r.status = -1 := by
  have h64 : step cfg < 2 ^ 64 := Nat.mod_lt _ (by norm_num)
  have hm1 : m < 2 ^ 32 := by
    have : m * 1 ≤ m * step cfg := Nat.mul_le_mul_left m hstep
    omega
  obtain ⟨tr, hr⟩ := mainLoop_reject (loopBody f cfg relaxedMode b) hstep h64
    (loopBody_nextOrExit hskip hops) hm (loopBody_reject hskip hops hj hk hrej) m 0 fuel
    (b.ret Op.build) (by omega) (by omega)
  rw [Nat.zero_mul] at hr
  have hb : ¬ b.ret Op.build ≠ 0 := by simp [hops Op.build rfl]
  refine ⟨{ status := -1, mode := b.mode,
            trace := Event.DisableFTZ :: Event.Force64BitFPUPrecision ::
              (Event.call Op.build (b.ret Op.build) :: tr ++ [Event.RestoreFPState]) }, ?_, rfl⟩
  unfold TestFunc_Int_Double buildAndLoop
  rw [if_neg hb, hr]
  rfl

theorem loopBody_status_zero {f : Func} {cfg : Config} {relaxedMode : Bool} {b : Backend}
    (hw : widths cfg ≠ [])
    (hops : ∀ o, o.fatal = true → b.ret o = 0)
    (hacc : ∀ i j k, j < batchSize cfg → k ∈ widths cfg →
      laneVerdict f cfg relaxedMode b i j k = none) (i : Nat) (e : Int) :
    (loopBody f cfg relaxedMode b i e).1 = Flow.next 0 ∨
      (loopBody f cfg relaxedMode b i e).1 = Flow.brk 0 := by
  have key : ∀ fl : Int → Flow, (∀ e1, (seq (skipCheck cfg e1) fun error =>
      seq (verify f cfg relaxedMode b i error) (progress cfg i)).1 = fl e1) →
      (loopBody f cfg relaxedMode b i e).1 = fl 0 := by
    intro fl hfl
    unfold loopBody
    rw [seq_fst_of_eq (show (emit [Event.fill i (batchBits cfg i)] e).1 = Flow.next e from rfl)]
    obtain ⟨e1, h1⟩ := falls_upload hops i e
    rw [seq_fst_of_eq h1]
    obtain ⟨e2, h2⟩ := falls_garbage hops i (widths cfg) e1
    rw [seq_fst_of_eq h2]
    obtain ⟨e3, h3⟩ := falls_kernels hops i (widths cfg) e2
    rw [seq_fst_of_eq h3]
    obtain ⟨e4, h4⟩ := falls_flush b i e3
    rw [seq_fst_of_eq h4]
    rw [seq_fst_of_eq (show (emit [Event.oracle i] e4).1 = Flow.next e4 from rfl)]
    rw [seq_fst_of_eq (forEach_fst_zero (readBack b i) (widths cfg) hw
      (fun k _ e => readBack_zero hops i k e) e4)]
    exact hfl 0
  have hver : ∀ e1, (verify f cfg relaxedMode b i e1).1 = Flow.next e1 := by
    intro e1
    unfold verify
    refine forEach_fst_keep _ _ (fun j hj e2 => ?_) e1
    refine forEach_fst_keep _ _ (fun k hk e3 => ?_) e2
    unfold verifyOne
    rw [hacc i j k (List.mem_range.1 hj) hk]
  have hprog : ∀ e1, (progress cfg i e1).1 = Flow.next e1 := by
    intro e1
    unfold progress
    split_ifs <;> rfl
  cases hs : cfg.gSkipCorrectnessTesting with
  | true =>
    refine Or.inr (key (fun e1 => Flow.brk e1) fun e1 => ?_)
    exact seq_fst_of_brk (by simp [skipCheck, hs])
  | false =>
    refine Or.inl (key (fun e1 => Flow.next e1) fun e1 => ?_)
    rw [seq_fst_of_eq (show (skipCheck cfg e1).1 = Flow.next e1 by simp [skipCheck, hs]),
      seq_fst_of_eq (hver e1)]
    exact hprog e1

theorem mainLoop_status_zero (body : Nat → Int → Flow × List Event) (stp : Nat)
    (hbody : ∀ i e, (body i e).1 = Flow.next 0 ∨ (body i e).1 = Flow.brk 0) :
    ∀ fuel i r, mainLoop body stp fuel i 0 = some r → r.1 = Flow.next 0 ∨ r.1 = Flow.brk 0 := by
  intro fuel
  induction fuel with
  | zero => intro i r h; simp [mainLoop] at h
  | succ n ih =>
    intro i r h
    rw [mainLoop] at h
    split_ifs at h with hi
    · have hb := hbody i 0
      rcases hbody1 : body i 0 with ⟨fl, tr⟩
      rw [hbody1] at h hb
      rcases hb with hb | hb
      · simp only at hb
        subst hb
        simp only [Option.map_eq_some'] at h
        obtain ⟨r1, hr1, rfl⟩ := h
        exact ih _ r1 hr1
      · simp only at hb
        subst hb
        simp only [Option.some.injEq] at h
        subst h
        exact Or.inr rfl
    · simp only [Option.some.injEq] at h
      subst h
      exact Or.inl rfl

/-- Outside the empty range of widths a failing `clFlush` never reaches the
returned status: when every fatal call succeeds and every compared lane is
accepted, a run over a non-empty range of widths returns 0 whatever `clFlush`
returns and whether or not correctness testing is skipped. -/
theorem flush_failure_not_fatal_with_widths (f : Func) (cfg : Config) (relaxedMode : Bool)
    (b : Backend) (hw : cfg.gMinVectorSizeIndex < cfg.gMaxVectorSizeIndex)
    (hops : ∀ o, o.fatal = true → b.ret o = 0)
    (hacc : ∀ i j k, j < batchSize cfg → k ∈ widths cfg →
      laneVerdict f cfg relaxedMode b i j k = none)
    (fuel : Nat) (r : Result) (hrun : TestFunc_Int_Double f cfg relaxedMode b fuel = some r) :
    r.status = 0 := by
  have hne : widths cfg ≠ [] := by
    intro h
    have : cfg.gMinVectorSizeIndex ∈ widths cfg := mem_widths.2 ⟨le_refl _, hw⟩
    rw [h] at this
    cases this
  obtain ⟨a, ha, rfl⟩ := testFunc_some hrun
  unfold buildAndLoop at ha
  rw [if_neg (by simp [hops Op.build rfl]), hops Op.build rfl] at ha
  simp only [Option.map_eq_some'] at ha
  obtain ⟨r1, hr1, rfl⟩ := ha
  rcases r1 with ⟨fl, tr⟩
  rcases mainLoop_status_zero _ _ (loopBody_status_zero hne hops hacc) _ _ _ hr1 with h | h <;>
    simp only at h <;> subst h <;> rfl

/-! ## The FPU state at return -/

theorem retShape_closed (b : Backend) : SeqClosed (RetShape b) := by
  refine ⟨fun e e1 h => (by cases h), ?_⟩
  rintro ⟨fl, tr⟩ g ha hg
  cases fl with
  | next e =>
    rw [seq_next]
    intro e1 h1
    obtain ⟨h2, h3⟩ := hg e e1 h1
    refine ⟨h2, ?_⟩
    rcases h3 with ⟨h4, h5⟩ | ⟨i, h4, h5⟩
    · exact Or.inl ⟨h4, List.mem_append_right _ h5⟩
    · exact Or.inr ⟨i, h4, List.mem_append_right _ h5⟩
  | brk e => exact ha
  | exit e => exact ha
  | ret e => exact ha

theorem retShape_callOrExit (b : Backend) (o : Op) (diag : List Event) (e : Int) :
    RetShape b (callOrExit b o diag e) := by
  unfold callOrExit
  split_ifs <;> intro e1 h <;> cases h

theorem retShape_loopBody (f : Func) (cfg : Config) (relaxedMode : Bool) (b : Backend)
    (i : Nat) (e : Int) : RetShape b (loopBody f cfg relaxedMode b i e) := by
  have hc := retShape_closed b
  refine loopBody_closed hc f cfg relaxedMode b i ?_ ?_ ?_ ?_ ?_ ?_ ?_ ?_ ?_ ?_ e
  · intro e e1 h; cases h
  · intro e
    unfold callOrReturn
    split_ifs with hne
    · intro e1 h
      simp only [Flow.ret.injEq] at h
      subst h
      exact ⟨hne, Or.inr ⟨i, rfl, List.mem_cons_self _ _⟩⟩
    · intro e1 h; cases h
  · intro k e _
    exact hc.2 _ _ (fun e1 h => by cases h) (retShape_callOrExit b _ _)
  · intro k e _
    refine hc.2 _ _ (retShape_callOrExit b _ _ e) fun e => ?_
    exact hc.2 _ _ (retShape_callOrExit b _ _ e) (retShape_callOrExit b _ _)
  · intro e
    unfold callLogged
    split_ifs <;> intro e1 h <;> cases h
  · intro e e1 h; cases h
  · intro k e _; exact retShape_callOrExit b _ _ e
  · intro e
    unfold skipCheck
    split_ifs <;> intro e1 h <;> cases h
  · intro e
    refine forEach_closed hc _ _ (fun j _ e1 => ?_) e
    refine forEach_closed hc _ _ (fun k _ e2 => ?_) e1
    unfold verifyOne
    split <;> intro e3 h <;> cases h
  · intro e
    unfold progress
    split_ifs <;> intro e1 h <;> cases h

/-- Every path other than the two early returns restores the FPU state: a run
either ends with `RestoreFPState` and the mode saved at entry, or it left
through `return error` after a failing kernel build or a failing upload of the
input array, without any `RestoreFPState`. -/
theorem fpu_restored_unless_early_return (f : Func) (cfg : Config) (relaxedMode : Bool)
    (b : Backend) (fuel : Nat) (r : Result)
    (hrun : TestFunc_Int_Double f cfg relaxedMode b fuel = some r) :
    (r.mode = b.mode ∧ ∃ pre, r.trace = pre ++ [Event.RestoreFPState]) ∨
    (r.mode = b.Force64BitFPUPrecision (b.DisableFTZ b.mode) ∧
      Event.RestoreFPState ∉ r.trace ∧ r.status ≠ 0 ∧
      (b.ret Op.build = r.status ∨
        ∃ i, b.ret (Op.writeIn i) = r.status ∧
          Event.call (Op.writeIn i) r.status ∈ r.trace)) := by
  obtain ⟨a, ha, rfl⟩ := testFunc_some hrun
  have hshape : RetShape b a := by
    refine buildAndLoop_closed (retShape_closed b) (retShape_loopBody f cfg relaxedMode b) ?_ ha
    intro e
    unfold callOrReturn
    split_ifs with hne
    · intro e1 h
      simp only [Flow.ret.injEq] at h
      subst h
      exact ⟨hne, Or.inl ⟨rfl, List.mem_cons_self _ _⟩⟩
    · intro e1 h; cases h
  have hnores : ∀ ev ∈ a.2, ev ≠ Event.RestoreFPState :=
    buildAndLoop_events (fun ev => ev ≠ Event.RestoreFPState) (by simp) (by simp) (by simp)
      (by simp) (by simp) (by simp) (by simp) (by simp) ha
  rcases a with ⟨fl, tr⟩
  cases fl with
  | next e =>
    exact Or.inl ⟨rfl, Event.DisableFTZ :: Event.Force64BitFPUPrecision ::
      (tr ++ epilogue cfg), by simp [finish]⟩
  | brk e =>
    exact Or.inl ⟨rfl, Event.DisableFTZ :: Event.Force64BitFPUPrecision ::
      (tr ++ epilogue cfg), by simp [finish]⟩
  | exit e =>
    exact Or.inl ⟨rfl, Event.DisableFTZ :: Event.Force64BitFPUPrecision :: tr,
      by simp [finish]⟩
  | ret e =>
    obtain ⟨h1, h2⟩ := hshape e rfl
    refine Or.inr ⟨rfl, ?_, h1, ?_⟩
    · intro hmem
      simp only [finish, List.mem_cons, reduceCtorEq, false_or] at hmem
      exact hnores _ hmem rfl
    · rcases h2 with ⟨h3, -⟩ | ⟨i, h3, h4⟩
      · exact Or.inl h3
      · exact Or.inr ⟨i, h3, by simp [finish, h4]⟩

/-! ## The lanes compared in a run -/

theorem compares_append (a b : List Event) : compares (a ++ b) = compares a ++ compares b := by
  induction a with
  | nil => rfl
  | cons x xs ih => cases x <;> simp [compares, ih]

theorem mem_compares {tr : List Event} {i j k : Nat} :
    (i, j, k) ∈ compares tr ↔ Event.compare i j k ∈ tr := by
  induction tr with
  | nil => simp [compares]
  | cons x xs ih => cases x <;> simp [compares, ih]

theorem compares_of_plain {tr : List Event} (h : ∀ ev ∈ tr, Event.isVerify ev = false) :
    compares tr = [] := by
  induction tr with
  | nil => rfl
  | cons x xs ih =>
    have hx := h x (List.mem_cons_self _ _)
    have hxs := ih fun ev hev => h ev (List.mem_cons_of_mem _ hev)
    cases x <;> simp_all [compares, Event.isVerify]

theorem mem_lanes {cfg : Config} {i i1 j k : Nat} :
    (i1, j, k) ∈ lanes cfg i ↔ i1 = i ∧ j < batchSize cfg ∧ k ∈ widths cfg := by
  unfold lanes
  simp only [List.mem_flatMap, List.mem_range, List.mem_map, Prod.mk.injEq]
  constructor
  · rintro ⟨j1, hj1, k1, hk1, h1, h2, h3⟩
    subst h1 h2 h3
    exact ⟨rfl, hj1, hk1⟩
  · rintro ⟨h1, h2, h3⟩
    exact ⟨j, h2, k, h3, h1.symm, rfl, rfl⟩

theorem cmpFree_closed : SeqClosed CmpFree := by
  refine ⟨fun e => rfl, ?_⟩
  rintro ⟨fl, tr⟩ g ha hg
  cases fl with
  | next e =>
    rw [seq_next]
    show compares (tr ++ (g e).2) = []
    rw [compares_append, show compares tr = [] from ha, show compares (g e).2 = [] from hg e]
    rfl
  | brk e => exact ha
  | exit e => exact ha
  | ret e => exact ha

theorem seq_snd_of_eq {a : Flow × List Event} {g : Int → Flow × List Event} {e : Int}
    (ha : a.1 = Flow.next e) : (seq a g).2 = a.2 ++ (g e).2 := by
  rcases a with ⟨fl, tr⟩
  simp only at ha
  subst ha
  rfl

theorem compared_seq_left {L : List (Nat × Nat × Nat)} {a : Flow × List Event}
    {g : Int → Flow × List Event} (ha : Compared [] a) (hg : ∀ e, Compared L (g e)) :
    Compared L (seq a g) := by
  obtain ⟨⟨e, he⟩, hc⟩ := ha
  obtain ⟨⟨e1, he1⟩, hc1⟩ := hg e
  refine ⟨⟨e1, by rw [seq_fst_of_eq he, he1]⟩, ?_⟩
  rw [seq_snd_of_eq he, compares_append, hc, hc1]
  rfl

theorem compared_seq_right {L : List (Nat × Nat × Nat)} {a : Flow × List Event}
    {g : Int → Flow × List Event} (ha : Compared L a) (hg : ∀ e, Compared [] (g e)) :
    Compared L (seq a g) := by
  obtain ⟨⟨e, he⟩, hc⟩ := ha
  obtain ⟨⟨e1, he1⟩, hc1⟩ := hg e
  refine ⟨⟨e1, by rw [seq_fst_of_eq he, he1]⟩, ?_⟩
  rw [seq_snd_of_eq he, compares_append, hc, hc1, List.append_nil]

theorem forEach_compared {α : Type} (body : α → Int → Flow × List Event)
    (c : α → List (Nat × Nat × Nat)) :
    ∀ (xs : List α), (∀ x ∈ xs, ∀ e, Compared (c x) (body x e)) →
      ∀ e, Compared (xs.flatMap c) (forEach body xs e) := by
  intro xs
  induction xs with
  | nil => intro _ e; exact ⟨⟨e, rfl⟩, rfl⟩
  | cons x xs ih =>
    intro h e
    obtain ⟨⟨e1, he1⟩, hc1⟩ := h x (List.mem_cons_self _ _) e
    obtain ⟨⟨e2, he2⟩, hc2⟩ := ih (fun y hy => h y (List.mem_cons_of_mem _ hy)) e1
    refine ⟨⟨e2, ?_⟩, ?_⟩
    · show (seq (body x e) (forEach body xs)).1 = _
      rw [seq_fst_of_eq he1, he2]
    · show compares (seq (body x e) (forEach body xs)).2 = _
      rw [seq_snd_of_eq he1, compares_append, hc1, hc2, List.flatMap_cons]

theorem verify_compared {f : Func} {cfg : Config} {relaxedMode : Bool} {b : Backend} {i : Nat}
    (hacc : ∀ j k, j < batchSize cfg → k ∈ widths cfg →
      laneVerdict f cfg relaxedMode b i j k = none) (e : Int) :
    Compared (lanes cfg i) (verify f cfg relaxedMode b i e) := by
  unfold verify lanes
  refine forEach_compared _ _ _ (fun j hj e1 => ?_) e
  rw [List.map_eq_flatMap]
  refine forEach_compared _ (fun k => [(i, j, k)]) _ (fun k hk e2 => ?_) e1
  unfold verifyOne
  rw [hacc j k (List.mem_range.1 hj) hk]
  exact ⟨⟨e2, rfl⟩, rfl⟩

theorem compared_of_plain {a : Flow × List Event} (hfall : ∃ e, a.1 = Flow.next e)
    (hplain : ∀ ev ∈ a.2, Event.isVerify ev = false) : Compared [] a :=
  ⟨hfall, compares_of_plain hplain⟩

theorem cmpFree_callOrExit (b : Backend) (o : Op) (m : Msg) (e : Int) :
    CmpFree (callOrExit b o [Event.log m] e) :=
  compares_of_plain (plain_callOrExit b o _ e (by simp [Event.isVerify]))

theorem cmpFree_setArg (b : Backend) (o : Op) (k : Nat) (e : Int) :
    CmpFree (callOrExit b o [Event.LogBuildError k] e) :=
  compares_of_plain (plain_callOrExit b o _ e (by simp [Event.isVerify]))

theorem loopBody_compared {f : Func} {cfg : Config} {relaxedMode : Bool} {b : Backend}
    (hskip : cfg.gSkipCorrectnessTesting = false)
    (hops : ∀ o, o.fatal = true → b.ret o = 0) {i : Nat}
    (hacc : ∀ j k, j < batchSize cfg → k ∈ widths cfg →
      laneVerdict f cfg relaxedMode b i j k = none) (e : Int) :
    Compared (lanes cfg i) (loopBody f cfg relaxedMode b i e) := by
  have hc := cmpFree_closed
  unfold loopBody
  refine compared_seq_left (compared_of_plain ⟨_, rfl⟩ (by simp [emit, Event.isVerify]))
    fun e => ?_
  refine compared_seq_left (compared_of_plain (falls_upload hops i e)
    (plain_callOrReturn _ _ _ _ (by simp [Event.isVerify]))) fun e => ?_
  refine compared_seq_left ⟨falls_garbage hops i _ e, forEach_closed hc _ _
    (fun k _ e => hc.2 _ _ (show CmpFree (emit [Event.memset i k] e) from rfl)
      (cmpFree_callOrExit b _ _)) e⟩ fun e => ?_
  refine compared_seq_left ⟨falls_kernels hops i _ e, forEach_closed hc _ _
    (fun k _ e => hc.2 _ _ (cmpFree_setArg b _ k e) fun e =>
      hc.2 _ _ (cmpFree_setArg b _ k e) (cmpFree_callOrExit b _ _)) e⟩ fun e => ?_
  refine compared_seq_left (compared_of_plain (falls_flush b i e)
    (plain_callLogged _ _ _ _ (by simp [Event.isVerify]))) fun e => ?_
  refine compared_seq_left (compared_of_plain ⟨_, rfl⟩ (by simp [emit, Event.isVerify]))
    fun e => ?_
  refine compared_seq_left ⟨falls_reads hops i _ e, forEach_closed hc _ _
    (fun k _ e => cmpFree_callOrExit b _ _ e) e⟩ fun e => ?_
  refine compared_seq_left ⟨⟨e, by simp [skipCheck, hskip]⟩, by simp [skipCheck, hskip, compares]⟩
    fun e => ?_
  refine compared_seq_right (verify_compared hacc e) fun e => ?_
  unfold progress
  split_ifs <;> exact ⟨⟨_, rfl⟩, rfl⟩

theorem mainLoop_compared (body : Nat → Int → Flow × List Event) {stp : Nat} (hstp : 0 < stp)
    (h64 : stp < 2 ^ 64) (gen : Nat → List (Nat × Nat × Nat))
    (hbody : ∀ i e, Compared (gen i) (body i e)) :
    ∀ d m fuel e, m + d = iterations stp → d < fuel →
      ∃ e1 tr, mainLoop body stp fuel (m * stp) e = some (Flow.next e1, tr) ∧
        compares tr = (List.range' m d).flatMap fun m1 => gen (m1 * stp) := by
  intro d
  induction d with
  | zero =>
    intro m fuel e hm hf
    obtain ⟨n, rfl⟩ : ∃ n, fuel = n + 1 := ⟨fuel - 1, by omega⟩
    have hge : ¬ m * stp < 2 ^ 32 := by
      rw [← lt_iterations hstp]
      omega
    rw [mainLoop, if_neg hge]
    exact ⟨e, [], rfl, rfl⟩
  | succ d ih =>
    intro m fuel e hm hf
    obtain ⟨n, rfl⟩ : ∃ n, fuel = n + 1 := ⟨fuel - 1, by omega⟩
    have hlt : m * stp < 2 ^ 32 := by
      rw [← lt_iterations hstp]
      omega
    obtain ⟨⟨e1, he1⟩, hc1⟩ := hbody (m * stp) e
    rcases hb : body (m * stp) e with ⟨fl, tr1⟩
    rw [hb] at he1 hc1
    simp only at he1 hc1
    subst he1
    have hnext : (m * stp + stp) % 2 ^ 64 = (m + 1) * stp := by
      have h1 : (m + 1) * stp = m * stp + stp := by ring
      rw [h1]
      apply Nat.mod_eq_of_lt
      rcases Nat.eq_zero_or_pos m with h0 | h0
      · subst h0; omega
      · have : stp ≤ m * stp := Nat.le_mul_of_pos_left stp h0
        omega
    obtain ⟨e2, tr2, hr, hf2⟩ := ih (m + 1) n e1 (by omega) (by omega)
    rw [mainLoop, if_pos hlt, hb]
    simp only [hnext, hr, Option.map_some']
    refine ⟨e2, tr1 ++ tr2, rfl, ?_⟩
    rw [compares_append, hc1, hf2, List.range'_succ, List.flatMap_cons]

theorem run_compared {f : Func} {cfg : Config} {relaxedMode : Bool} {b : Backend}
    (hstep : 0 < step cfg)
    (hskip : cfg.gSkipCorrectnessTesting = false)
    (hops : ∀ o, o.fatal = true → b.ret o = 0)
    (hacc : ∀ i j k, j < batchSize cfg → k ∈ widths cfg →
      laneVerdict f cfg relaxedMode b i j k = none)
    {fuel : Nat} (hfuel : 2 ^ 32 < fuel) :
    ∃ r, TestFunc_Int_Double f cfg relaxedMode b fuel = some r ∧
      compares r.trace = (List.range (iterations (step cfg))).flatMap
        fun m => lanes cfg (m * step cfg) := by
  have h64 : step cfg < 2 ^ 64 := Nat.mod_lt _ (by norm_num)
  have hit := iterations_le hstep
  obtain ⟨e1, tr, hr, hf⟩ := mainLoop_compared (loopBody f cfg relaxedMode b) hstep h64
    (lanes cfg) (fun i e => loopBody_compared hskip hops (hacc i) e) (iterations (step cfg)) 0
    fuel (b.ret Op.build) (by omega) (by omega)
  rw [Nat.zero_mul] at hr
  have hb : ¬ b.ret Op.build ≠ 0 := by simp [hops Op.build rfl]
  refine ⟨{ status := e1, mode := b.mode,
            trace := Event.DisableFTZ :: Event.Force64BitFPUPrecision ::
              (Event.call Op.build (b.ret Op.build) :: tr ++ epilogue cfg ++
                [Event.RestoreFPState]) }, ?_, ?_⟩
  · unfold TestFunc_Int_Double buildAndLoop
    rw [if_neg hb, hr]
    rfl
  · have he : compares (epilogue cfg) = [] := by
      unfold epilogue
      split_ifs <;> rfl
    show compares ([Event.DisableFTZ, Event.Force64BitFPUPrecision,
      Event.call Op.build (b.ret Op.build)] ++ tr ++ epilogue cfg ++ [Event.RestoreFPState]) = _
    rw [compares_append, compares_append, compares_append, hf, he, List.range_eq_range']
    simp [compares]

theorem allCompared_closed (cfg : Config) (i : Nat) : SeqClosed (AllCompared cfg i) := by
  refine ⟨fun e h => (by simp at h), ?_⟩
  rintro ⟨fl, tr⟩ g ha hg
  cases fl with
  | next e =>
    rw [seq_next]
    rintro ⟨j, k, hmem⟩ j1 k1 hj1 hk1
    rcases List.mem_append.1 hmem with h | h
    · exact List.mem_append_left _ (ha ⟨j, k, h⟩ j1 k1 hj1 hk1)
    · exact List.mem_append_right _ (hg e ⟨j, k, h⟩ j1 k1 hj1 hk1)
  | brk e => exact ha
  | exit e => exact ha
  | ret e => exact ha

theorem verify_allCompared {f : Func} {cfg : Config} {relaxedMode : Bool} {b : Backend}
    {i : Nat} (hacc : ∀ j k, j < batchSize cfg → k ∈ widths cfg →
      laneVerdict f cfg relaxedMode b i j k = none) (i0 : Nat) (e : Int) :
    AllCompared cfg i (verify f cfg relaxedMode b i0 e) := by
  rintro ⟨j, k, hmem⟩ j1 k1 hj1 hk1
  have hi : i = i0 := verify_comparesOf f cfg relaxedMode b i0 e i j k hmem
  subst hi
  rw [← mem_compares, (verify_compared hacc e).2, mem_lanes]
  exact ⟨rfl, hj1, hk1⟩

theorem finish_subset {cfg : Config} {b : Backend} {a : Flow × List Event} {ev : Event}
    (h : ev ∈ a.2) : ev ∈ (finish cfg b a).trace := by
  rcases a with ⟨fl, tr⟩
  cases fl <;> simp only [finish] <;> simp [show ev ∈ tr from h]

theorem run_allCompared {f : Func} {cfg : Config} {relaxedMode : Bool} {b : Backend}
    {fuel : Nat} {r : Result} (hrun : TestFunc_Int_Double f cfg relaxedMode b fuel = some r)
    {i : Nat} (hacc : ∀ j k, j < batchSize cfg → k ∈ widths cfg →
      laneVerdict f cfg relaxedMode b i j k = none)
    (hver : ∃ j k, Event.compare i j k ∈ r.trace) :
    ∀ j k, j < batchSize cfg → k ∈ widths cfg → Event.compare i j k ∈ r.trace := by
  obtain ⟨a, ha, rfl⟩ := testFunc_some hrun
  have hplain : ∀ a : Flow × List Event, (∀ ev ∈ a.2, Event.isVerify ev = false) →
      AllCompared cfg i a := by
    rintro a h ⟨j, k, hmem⟩
    simpa [Event.isVerify] using h _ hmem
  have hshape : AllCompared cfg i a := by
    refine buildAndLoop_closed (allCompared_closed cfg i) ?_ ?_ ha
    · intro i0 e
      exact loopBody_plainClosed (allCompared_closed cfg i) hplain f cfg relaxedMode b i0
        (verify_allCompared hacc i0) e
    · intro e
      exact hplain _ (plain_callOrReturn _ _ _ _ (by simp))
  obtain ⟨j, k, hmem⟩ := hver
  intro j1 k1 hj1 hk1
  have := hshape ⟨j, k, run_mem_verify hmem rfl⟩ j1 k1 hj1 hk1
  exact List.mem_cons_of_mem _ (List.mem_cons_of_mem _ (finish_subset this))

/-! ## The claims -/

/-- C1. For lane `j` of width `k` in iteration `i`, with input `s`, oracle word
`t = f(s)` and device word `q`: the verifier accepts the lane exactly when the
rule of the specification holds.  In every run that compares the lane, an
accepted lane is never reported, and a lane that is not accepted ends the run
with status `-1` right after its report and the restoration of the FPU state.
When the stride is positive, correctness testing is not skipped and no fatal
call fails, a lane of the batch of an iteration `i` of the outer loop that is
not accepted makes the function return `-1`. -/
theorem verifier_accepts_iff (f : Func) (cfg : Config) (relaxedMode : Bool) (b : Backend)
    (i j k : Nat) :
    (verifyLane f cfg relaxedMode (input cfg i j) (toUInt32 (f.i_f (input cfg i j)))
        (actual b i j k) = none ↔
      specAccepts f cfg relaxedMode (input cfg i j) (toUInt32 (f.i_f (input cfg i j)))
        (actual b i j k)) ∧
    (∀ fuel r, TestFunc_Int_Double f cfg relaxedMode b fuel = some r →
      Event.compare i j k ∈ r.trace →
      (specAccepts f cfg relaxedMode (input cfg i j) (toUInt32 (f.i_f (input cfg i j)))
          (actual b i j k) → ∀ err, Event.mismatch i j k err ∉ r.trace) ∧
      (¬ specAccepts f cfg relaxedMode (input cfg i j) (toUInt32 (f.i_f (input cfg i j)))
          (actual b i j k) →
        r.status = -1 ∧ ∃ pre, r.trace = pre ++ [Event.compare i j k,
          Event.mismatch i j k (ulpErr (toUInt32 (f.i_f (input cfg i j))) (actual b i j k)),
          Event.RestoreFPState]) ∧
      (∀ n, fuel ≤ n → TestFunc_Int_Double f cfg relaxedMode b n = some r)) ∧
    (¬ specAccepts f cfg relaxedMode (input cfg i j) (toUInt32 (f.i_f (input cfg i j)))
        (actual b i j k) →
      j < cfg.BUFFER_SIZE / 8 → cfg.gMinVectorSizeIndex ≤ k → k < cfg.gMaxVectorSizeIndex →
      0 < step cfg → cfg.gSkipCorrectnessTesting = false →
      (∀ o, o.fatal = true → b.ret o = 0) → (∃ m, i = m * step cfg) → i < 2 ^ 32 →
      ∃ r, r.status = -1 ∧
        ∀ n, 2 ^ 32 < n → TestFunc_Int_Double f cfg relaxedMode b n = some r) := by
  have hiff := verifyLane_eq_none_iff f cfg relaxedMode (input cfg i j)
    (toUInt32 (f.i_f (input cfg i j))) (actual b i j k)
  refine ⟨hiff, ?_, ?_⟩
  · intro fuel r hrun hcmp
    obtain ⟨-, r2, r3, -⟩ := run_verShape hrun
    refine ⟨?_, ?_, (testFunc_stable hrun).1⟩
    · intro hacc err hmem
      have h1 := r2 i j k err hmem
      have h2 : laneVerdict f cfg relaxedMode b i j k = none := hiff.2 hacc
      rw [h2] at h1
      cases h1
    · intro hacc
      have hrej : laneVerdict f cfg relaxedMode b i j k ≠ none := fun h => hacc (hiff.1 h)
      obtain ⟨hst, pre, err, htr⟩ := r3 i j k hcmp hrej
      refine ⟨hst, pre, ?_⟩
      have hmem : Event.mismatch i j k err ∈ r.trace := by rw [htr]; simp
      have := (verifyLane_some (r2 i j k err hmem)).2
      rw [htr, this]
      rfl
  · rintro hacc hj hk1 hk2 hstep hskip hops ⟨m, rfl⟩ hi
    have hrej : laneVerdict f cfg relaxedMode b (m * step cfg) j k ≠ none :=
      fun h => hacc (hiff.1 h)
    obtain ⟨r, hr, hst⟩ := run_reject hstep hskip hops hi hj (mem_widths.2 ⟨hk1, hk2⟩) hrej
      (Nat.lt_succ_self (2 ^ 32))
    exact ⟨r, hst, (testFunc_stable hr).2 hstep⟩

/-- C1, on the run of `signbit` against a device that leaves the pattern in place:
lane 0 of the first batch is compared, is not accepted, and the run returns `-1`. -/
theorem verifier_accepts_iff_witness :
    TestFunc_Int_Double signbit smallCfg false idleBackend 5 = some idleRun ∧
    Event.compare 0 0 0 ∈ idleRun.trace ∧
    ¬ specAccepts signbit smallCfg false (input smallCfg 0 0)
        (toUInt32 (signbit.i_f (input smallCfg 0 0))) (actual idleBackend 0 0 0) ∧
    idleRun.status = -1 ∧
    ∃ r, r.status = -1 ∧
      ∀ n, 2 ^ 32 < n → TestFunc_Int_Double signbit smallCfg false idleBackend n = some r :=
  ⟨by decide, by decide, by decide,
    (((verifier_accepts_iff signbit smallCfg false idleBackend 0 0 0).2.1 5 idleRun
      (by decide) (by decide)).2.1 (by decide)).1,
    (verifier_accepts_iff signbit smallCfg false idleBackend 0 0 0).2.2 (by decide)
      (by decide) (by decide) (by decide) (by decide) rfl (fun _ _ => rfl) ⟨0, by decide⟩
      (by decide)⟩

/-- C2. A lane whose input is not subnormal and whose device word differs from the
oracle word is reported with distance `ulpErr t q` whatever the flush-to-zero
flags are; every run that compares such a lane returns `-1` right after the
report; and when the stride is positive, correctness testing is not skipped and
no fatal call fails, such a lane in the batch of an iteration `i` of the outer
loop makes the function return `-1`.  On the input `-0.0`, which is not
subnormal, with oracle word 1 (as for `signbit`), a device word 1 is accepted
and a device word 0 is reported with distance 1. -/
theorem leniency_only_for_subnormal (f : Func) (cfg : Config) (relaxedMode : Bool) (b : Backend)
    (i j k : Nat) (hsub : cfg.IsDoubleSubnormal (input cfg i j) = false)
    (hne : actual b i j k ≠ toUInt32 (f.i_f (input cfg i j))) :
    verifyLane f cfg relaxedMode (input cfg i j) (toUInt32 (f.i_f (input cfg i j)))
        (actual b i j k) =
      some (ulpErr (toUInt32 (f.i_f (input cfg i j))) (actual b i j k)) ∧
    (∀ fuel r, TestFunc_Int_Double f cfg relaxedMode b fuel = some r →
      Event.compare i j k ∈ r.trace →
      r.status = -1 ∧
      (∃ pre, r.trace = pre ++ [Event.compare i j k,
        Event.mismatch i j k (ulpErr (toUInt32 (f.i_f (input cfg i j))) (actual b i j k)),
        Event.RestoreFPState]) ∧
      (∀ n, fuel ≤ n → TestFunc_Int_Double f cfg relaxedMode b n = some r)) ∧
    (j < cfg.BUFFER_SIZE / 8 → cfg.gMinVectorSizeIndex ≤ k → k < cfg.gMaxVectorSizeIndex →
      0 < step cfg → cfg.gSkipCorrectnessTesting = false →
      (∀ o, o.fatal = true → b.ret o = 0) → (∃ m, i = m * step cfg) → i < 2 ^ 32 →
      ∃ r, r.status = -1 ∧
        ∀ n, 2 ^ 32 < n → TestFunc_Int_Double f cfg relaxedMode b n = some r) ∧
    (∀ (g : Func) (c : Config) (rm : Bool) (s t q : Nat),
      c.IsDoubleSubnormal s = false → q ≠ t → verifyLane g c rm s t q = some (ulpErr t q)) ∧
    (∀ (g : Func) (c : Config) (rm : Bool), c.IsDoubleSubnormal negZero = false →
      verifyLane g c rm negZero 1 1 = none ∧ verifyLane g c rm negZero 1 0 = some 1) ∧
    (subnormalEncoding negZero = false ∧ toUInt32 (signbit.i_f negZero) = 1) := by
  have hgen : ∀ (g : Func) (c : Config) (rm : Bool) (s t q : Nat),
      c.IsDoubleSubnormal s = false → q ≠ t → verifyLane g c rm s t q = some (ulpErr t q) := by
    intro g c rm s t q hs hq
    have hq1 : t ≠ q := fun h => hq h.symm
    unfold verifyLane
    rw [if_pos hq1, hs]
    simp
  have hverdict := hgen f cfg relaxedMode _ _ _ hsub hne
  have hrej : laneVerdict f cfg relaxedMode b i j k ≠ none := by
    unfold laneVerdict expected
    rw [hverdict]
    simp
  refine ⟨hverdict, ?_, ?_, hgen, ?_, by decide, by decide⟩
  · intro fuel r hrun hcmp
    obtain ⟨-, r2, r3, -⟩ := run_verShape hrun
    obtain ⟨hst, pre, err, htr⟩ := r3 i j k hcmp hrej
    have hmem : Event.mismatch i j k err ∈ r.trace := by rw [htr]; simp
    have herr := (verifyLane_some (r2 i j k err hmem)).2
    refine ⟨hst, ⟨pre, ?_⟩, (testFunc_stable hrun).1⟩
    rw [htr, herr]
    rfl
  · rintro hj hk1 hk2 hstep hskip hops ⟨m, rfl⟩ hi
    obtain ⟨r, hr, hst⟩ := run_reject hstep hskip hops hi hj (mem_widths.2 ⟨hk1, hk2⟩) hrej
      (Nat.lt_succ_self (2 ^ 32))
    exact ⟨r, hst, (testFunc_stable hr).2 hstep⟩
  · intro g c rm hs
    refine ⟨?_, ?_⟩
    · simp [verifyLane]
    · rw [hgen g c rm negZero 1 0 hs (by decide)]
      rfl

/-- C2, on the run of `signbit` against a device answering 0 everywhere: the first
lane of the second batch holds `-0.0`, is reported with distance 1 and the run
returns `-1`. -/
theorem leniency_only_for_subnormal_witness :
    TestFunc_Int_Double signbit smallCfg true zeroBackend 5 = some zeroRun ∧
    input smallCfg 2147483648 0 = negZero ∧
    smallCfg.IsDoubleSubnormal (input smallCfg 2147483648 0) = false ∧
    actual zeroBackend 2147483648 0 0 ≠ toUInt32 (signbit.i_f (input smallCfg 2147483648 0)) ∧
    zeroRun.status = -1 ∧
    ∃ pre, zeroRun.trace = pre ++ [Event.compare 2147483648 0 0,
      Event.mismatch 2147483648 0 0
        (ulpErr (toUInt32 (signbit.i_f (input smallCfg 2147483648 0)))
          (actual zeroBackend 2147483648 0 0)),
      Event.RestoreFPState] :=
  ⟨by decide, by decide, by decide, by decide,
    ((leniency_only_for_subnormal signbit smallCfg true zeroBackend 2147483648 0 0
      (by decide) (by decide)).2.1 5 zeroRun (by decide) (by decide)).1,
    ((leniency_only_for_subnormal signbit smallCfg true zeroBackend 2147483648 0 0
      (by decide) (by decide)).2.1 5 zeroRun (by decide) (by decide)).2.1⟩

/-- C3. When the oracle never yields the word `0xffffdead` (on the input of the
lane, on `+0.0` and on `-0.0`), a lane of an active width that still holds the
pattern after the read-back is refused by the verifier whatever the flush-to-zero
flags are; every run whose verifier works on that batch returns `-1`; and when
the stride is positive, correctness testing is not skipped and no fatal call
fails, the run does return, with status `-1`, for every iteration `i` of the
outer loop in which such a lane exists. -/
theorem untouched_lane_is_mismatch (f : Func) (cfg : Config) (relaxedMode : Bool) (b : Backend)
    (i j k : Nat) (hj : j < cfg.BUFFER_SIZE / 8)
    (hk : cfg.gMinVectorSizeIndex ≤ k ∧ k < cfg.gMaxVectorSizeIndex)
    (hq : actual b i j k = pattern)
    (horacle : toUInt32 (f.i_f (input cfg i j)) ≠ pattern)
    (hzero : toUInt32 (f.i_f posZero) ≠ pattern)
    (hnegz : toUInt32 (f.i_f negZero) ≠ pattern) :
    verifyLane f cfg relaxedMode (input cfg i j) (toUInt32 (f.i_f (input cfg i j)))
        (actual b i j k) =
      some (ulpErr (toUInt32 (f.i_f (input cfg i j))) pattern) ∧
    (∀ fuel r, TestFunc_Int_Double f cfg relaxedMode b fuel = some r →
      (∃ j1 k1, Event.compare i j1 k1 ∈ r.trace) → r.status = -1) ∧
    (0 < step cfg → cfg.gSkipCorrectnessTesting = false →
      (∀ o, o.fatal = true → b.ret o = 0) → (∃ m, i = m * step cfg) → i < 2 ^ 32 →
      ∃ r, r.status = -1 ∧
        ∀ n, 2 ^ 32 < n → TestFunc_Int_Double f cfg relaxedMode b n = some r) := by
  have hverdict : verifyLane f cfg relaxedMode (input cfg i j)
      (toUInt32 (f.i_f (input cfg i j))) (actual b i j k) =
      some (ulpErr (toUInt32 (f.i_f (input cfg i j))) pattern) := by
    rw [hq]
    have hnot : verifyLane f cfg relaxedMode (input cfg i j)
        (toUInt32 (f.i_f (input cfg i j))) pattern ≠ none := by
      rw [Ne, verifyLane_eq_none_iff]
      rintro (h | ⟨-, -, h | h⟩)
      · exact horacle h.symm
      · exact hzero h.symm
      · exact hnegz h.symm
    cases hv : verifyLane f cfg relaxedMode (input cfg i j)
        (toUInt32 (f.i_f (input cfg i j))) pattern with
    | none => exact absurd hv hnot
    | some err => rw [(verifyLane_some hv).2]
  have hrej : laneVerdict f cfg relaxedMode b i j k ≠ none := by
    unfold laneVerdict expected
    rw [hverdict]
    simp
  refine ⟨hverdict, ?_, ?_⟩
  · intro fuel r hrun hver
    exact (run_verShape hrun).2.2.2 i hver ⟨j, k, hj, mem_widths.2 hk, hrej⟩
  · rintro hstep hskip hops ⟨m, rfl⟩ hi
    obtain ⟨r, hr, hst⟩ := run_reject hstep hskip hops hi hj (mem_widths.2 hk) hrej
      (Nat.lt_succ_self (2 ^ 32))
    exact ⟨r, hst, (testFunc_stable hr).2 hstep⟩

/-- C3, on the run of `signbit` against a device that leaves the pattern in place:
the second lane of the first batch still holds the pattern and the run returns `-1`. -/
theorem untouched_lane_is_mismatch_witness :
    TestFunc_Int_Double signbit smallCfg false idleBackend 5 = some idleRun ∧
    actual idleBackend 0 1 0 = 0xffffdead ∧ idleRun.status = -1 ∧
    ∃ r, r.status = -1 ∧
      ∀ n, 2 ^ 32 < n → TestFunc_Int_Double signbit smallCfg false idleBackend n = some r :=
  ⟨by decide, by decide,
    (untouched_lane_is_mismatch signbit smallCfg false idleBackend 0 1 0
      (by decide) (by decide) (by decide) (by decide) (by decide) (by decide)).2.1
      5 idleRun (by decide) ⟨0, 0, by decide⟩,
    (untouched_lane_is_mismatch signbit smallCfg false idleBackend 0 1 0
      (by decide) (by decide) (by decide) (by decide) (by decide) (by decide)).2.2
      (by decide) rfl (fun _ _ => rfl) ⟨0, by decide⟩ (by decide)⟩

/-- C4. For 32-bit words `t` (expected) and `q` (actual) the distance computed at
lines 193-194 is the absolute difference of the two unsigned values, hence is
symmetric and again a 32-bit word; it is 2 for (5, 3) and for (3, 5); and it is the
distance carried by every mismatch report of the verifier and of a run. -/
theorem distance_symmetric_unsigned (t q : Nat) (ht : t < 2 ^ 32) (hq : q < 2 ^ 32) :
    (ulpErr t q : Int) = |(t : Int) - (q : Int)| ∧
    ulpErr t q = ulpErr q t ∧
    ulpErr t q < 2 ^ 32 ∧
    ulpErr 5 3 = 2 ∧ ulpErr 3 5 = 2 ∧
    (∀ (f : Func) (cfg : Config) (relaxedMode : Bool) (s err : Nat),
      verifyLane f cfg relaxedMode s t q = some err → err = ulpErr t q) ∧
    (∀ (f : Func) (cfg : Config) (relaxedMode : Bool) (b : Backend) (fuel : Nat) (r : Result),
      TestFunc_Int_Double f cfg relaxedMode b fuel = some r →
      ∀ i j k err, Event.mismatch i j k err ∈ r.trace →
        (err : Int) = |(expected f cfg i j : Int) - (actual b i j k : Int)|) := by
  have habs := ulpErr_abs ht hq
  refine ⟨habs, ?_, ?_, by decide, by decide, ?_, ?_⟩
  · have h2 := ulpErr_abs hq ht
    rw [abs_sub_comm] at h2
    exact_mod_cast habs.trans h2.symm
  · rcases Nat.lt_or_ge t q with h | h
    · rw [ulpErr_of_lt hq h]; omega
    · rw [ulpErr_of_le ht h]; omega
  · intro f cfg relaxedMode s err h
    exact (verifyLane_some h).2
  · intro f cfg relaxedMode b fuel r hrun i j k err hmem
    have h1 := (run_verShape hrun).2.1 i j k err hmem
    rw [(verifyLane_some h1).2]
    exact ulpErr_abs (expected_lt f cfg i j) (actual_lt b i j k)

/-- C4, at expected 5 and actual 3. -/
theorem distance_symmetric_unsigned_witness :
    (5 : Nat) < 2 ^ 32 ∧ (3 : Nat) < 2 ^ 32 ∧ ulpErr 5 3 = ulpErr 3 5 ∧ ulpErr 5 3 = 2 :=
  ⟨by decide, by decide,
    (distance_symmetric_unsigned 5 3 (by decide) (by decide)).2.1,
    (distance_symmetric_unsigned 5 3 (by decide) (by decide)).2.2.2.1⟩

/-- C8. If a fatal call of a run (the kernel build through `ThreadPool_Do`,
`clEnqueueWriteBuffer`, `clSetKernelArg`, `clEnqueueNDRangeKernel` or
`clEnqueueReadBuffer`) returns `e ≠ 0` and no fatal call failed before it, then
the function returns exactly `e`, and all that follows the call in the trace is
diagnostics and the FPU restoration: no further runtime call (so no retry), no
input generation, no oracle or comparison work.  The result does not depend on
the fuel, and for a positive stride the function does return. -/
theorem first_error_is_status (f : Func) (cfg : Config) (relaxedMode : Bool) (b : Backend) :
    (0 < step cfg → ∃ r, ∀ n, 2 ^ 32 < n → TestFunc_Int_Double f cfg relaxedMode b n = some r) ∧
    ∀ fuel r, TestFunc_Int_Double f cfg relaxedMode b fuel = some r →
      (∀ n, fuel ≤ n → TestFunc_Int_Double f cfg relaxedMode b n = some r) ∧
      ∀ (pre post : List Event) (o : Op) (e : Int),
        r.trace = pre ++ Event.call o e :: post → o.fatal = true → e ≠ 0 →
        (∀ o1 c1, Event.call o1 c1 ∈ pre → o1.fatal = true → c1 = 0) →
        r.status = e ∧
        ∀ ev ∈ post, (∃ m, ev = Event.log m) ∨ (∃ k, ev = Event.LogBuildError k) ∨
          ev = Event.RestoreFPState := by
  refine ⟨fun hstep => ?_, fun fuel r hrun => ⟨(testFunc_stable hrun).1, ?_⟩⟩
  · obtain ⟨r, hr⟩ := testFunc_total f cfg relaxedMode b hstep (Nat.lt_succ_self (2 ^ 32))
    exact ⟨r, (testFunc_stable hr).2 hstep⟩
  intro pre post o e htrace hfatal he hfirst
  have hpre : NoFail pre := by
    intro ev hev
    cases ev with
    | call o1 c1 =>
      by_cases ho : o1.fatal = true
      · simp [Event.failing, hfirst o1 c1 hev ho]
      · simp [Event.failing, ho]
    | _ => rfl
  have hfail : Event.failing (Event.call o e) = true := by simp [Event.failing, hfatal, he]
  have hquiet : ∀ ev : Event, Event.quiet ev = true →
      (∃ m, ev = Event.log m) ∨ (∃ k, ev = Event.LogBuildError k) ∨
        ev = Event.RestoreFPState := by
    intro ev hev
    cases ev <;> simp_all [Event.quiet]
  rcases run_errShape hrun with h | ⟨pre1, o1, post1, htr1, ho1, he1, hpre1, hpost1⟩
  · have := h (Event.call o e) (by rw [htrace]; simp)
    rw [hfail] at this
    cases this
  · rw [htrace] at htr1
    have hfail1 : Event.failing (Event.call o1 r.status) = true := by
      simp [Event.failing, ho1, he1]
    obtain ⟨-, h2, h3⟩ := first_fail_unique htr1 hpre hpre1 hfail hfail1
    simp only [Event.call.injEq] at h2
    refine ⟨h2.2.symm, ?_⟩
    intro ev hev
    rw [h3] at hev
    exact hquiet ev (hpost1 ev hev)

/-- C8, on a run whose first read-back fails with `-5`: the function returns `-5`. -/
theorem first_error_is_status_witness :
    TestFunc_Int_Double signbit smallCfg false
        (faultyBackend signbit smallCfg (Op.read 0 0) (-5)) 5 = some readFailRun ∧
    readFailRun.trace = firstDispatch ++ Event.call (Op.read 0 0) (-5) ::
        [Event.log Msg.readFailed, Event.RestoreFPState] ∧
    readFailRun.status = -5 :=
  ⟨by decide, by decide,
    (((first_error_is_status signbit smallCfg false
      (faultyBackend signbit smallCfg (Op.read 0 0) (-5))).2 5 readFailRun (by decide)).2
      firstDispatch [Event.log Msg.readFailed, Event.RestoreFPState] (Op.read 0 0) (-5)
      (by decide) (by decide) (by decide) (by
        intro o1 c1 h
        simp only [firstDispatch, List.mem_cons, Event.call.injEq, reduceCtorEq, false_or,
          List.mem_singleton, List.not_mem_nil, or_false] at h
        rcases h with h | h | h | h | h | h | h <;> intro _ <;> exact h.2)).1⟩

/-- C5. In exhaustive mode, with the stride equal to the number of doubles per
batch and positive, a run that is not cut short (no fatal call fails, every lane
is accepted, correctness testing is not skipped) returns, and in it the batch of
the iteration starting at `i` is `i, i+1, ..., i+batchSize-1` truncated to 32
bits, in order; every 32-bit index is the entry `j` of the batch of some
iteration; and when the stride divides `2^32` the batches, concatenated in
order, are exactly `0, 1, ..., 2^32 - 1`, so each index is generated once. -/
theorem exhaustive_mode_covers (f : Func) (cfg : Config) (relaxedMode : Bool) (b : Backend)
    (hwimpy : cfg.gWimpyMode = false) (hstepeq : step cfg = cfg.BUFFER_SIZE / 8)
    (hpos : 0 < step cfg) (hskip : cfg.gSkipCorrectnessTesting = false)
    (hops : ∀ o, o.fatal = true → b.ret o = 0)
    (hacc : ∀ i j k, j < cfg.BUFFER_SIZE / 8 →
      cfg.gMinVectorSizeIndex ≤ k → k < cfg.gMaxVectorSizeIndex →
      verifyLane f cfg relaxedMode (input cfg i j) (toUInt32 (f.i_f (input cfg i j)))
        (actual b i j k) = none) :
    ∃ r, (∀ n, 2 ^ 32 < n → TestFunc_Int_Double f cfg relaxedMode b n = some r) ∧
      (∀ i bits, Event.fill i bits ∈ r.trace →
        i < 2 ^ 32 ∧ bits = (List.range (cfg.BUFFER_SIZE / 8)).map fun j => (i + j) % 2 ^ 32) ∧
      (∀ n, n < 2 ^ 32 → ∃ i bits j, Event.fill i bits ∈ r.trace ∧
        j < cfg.BUFFER_SIZE / 8 ∧ (i + j) % 2 ^ 32 = n ∧ bits[j]? = some n) ∧
      (step cfg ∣ 2 ^ 32 →
        ((fills r.trace).map Prod.snd).flatten = List.range (2 ^ 32) ∧
        ∀ n, n < 2 ^ 32 → List.count n ((fills r.trace).map Prod.snd).flatten = 1) := by
  have hacc1 : ∀ i j k, j < batchSize cfg → k ∈ widths cfg →
      laneVerdict f cfg relaxedMode b i j k = none := by
    intro i j k hj hk
    exact hacc i j k hj (mem_widths.1 hk).1 (mem_widths.1 hk).2
  obtain ⟨r, hr, hf⟩ := run_clean hpos hskip hops hacc1 (Nat.lt_succ_self (2 ^ 32))
  refine ⟨r, (testFunc_stable hr).2 hpos, ?_, ?_, ?_⟩
  · intro i bits hmem
    rw [← mem_fills, hf, List.mem_map] at hmem
    obtain ⟨m, hm, heq⟩ := hmem
    simp only [Prod.mk.injEq] at heq
    rw [← heq.1, ← heq.2]
    exact ⟨(lt_iterations hpos m).1 (List.mem_range.1 hm), batchBits_exhaustive hwimpy _⟩
  · intro n hn
    have hdm := Nat.div_add_mod n (step cfg)
    have hm : n / step cfg < iterations (step cfg) := by
      rw [lt_iterations hpos]
      have := Nat.div_mul_le_self n (step cfg)
      omega
    have hj : n % step cfg < cfg.BUFFER_SIZE / 8 := by
      rw [← hstepeq]
      exact Nat.mod_lt _ hpos
    have hval : (n / step cfg * step cfg + n % step cfg) % 2 ^ 32 = n := by
      rw [Nat.mul_comm, hdm]
      exact Nat.mod_eq_of_lt hn
    refine ⟨n / step cfg * step cfg, batchBits cfg (n / step cfg * step cfg), n % step cfg,
      ?_, hj, hval, ?_⟩
    · rw [← mem_fills, hf, List.mem_map]
      exact ⟨n / step cfg, List.mem_range.2 hm, rfl⟩
    · rw [batchBits_exhaustive hwimpy, List.getElem?_map, List.getElem?_range hj,
        Option.map_some', hval]
  · intro hdvd
    have hflat : ((fills r.trace).map Prod.snd).flatten = List.range (2 ^ 32) := by
      have h1 : (fills r.trace).map Prod.snd = (List.range' 0 (iterations (step cfg))).map
          fun m1 => (List.range (step cfg)).map fun j => (m1 * step cfg + j) % 2 ^ 32 := by
        rw [hf, List.map_map, List.range_eq_range']
        refine List.map_congr_left fun m _ => ?_
        show batchBits cfg (m * step cfg) = _
        rw [batchBits_exhaustive hwimpy, hstepeq]
      rw [h1, flatten_batches, (iterations_of_dvd hpos hdvd).2, Nat.zero_mul,
        ← List.range_eq_range']
      conv_rhs => rw [← List.map_id (List.range (2 ^ 32))]
      exact List.map_congr_left fun x hx => Nat.mod_eq_of_lt (List.mem_range.1 hx)
    refine ⟨hflat, fun n hn => ?_⟩
    rw [hflat]
    exact List.count_eq_one_of_mem (List.nodup_range _) (List.mem_range.2 hn)

/-- C5, on a 2 MiB buffer with stride 262144 against a device that computes the
function exactly: the batches of the run enumerate `0, ..., 2^32 - 1`. -/
theorem exhaustive_mode_covers_witness :
    step exhaustiveCfg = exhaustiveCfg.BUFFER_SIZE / 8 ∧ 0 < step exhaustiveCfg ∧
    ∃ r, (∀ n, 2 ^ 32 < n → TestFunc_Int_Double signbit exhaustiveCfg false
        (exactBackend signbit exhaustiveCfg) n = some r) ∧
      ((fills r.trace).map Prod.snd).flatten = List.range (2 ^ 32) :=
  ⟨by decide, by decide,
    (exhaustive_mode_covers signbit exhaustiveCfg false (exactBackend signbit exhaustiveCfg)
      rfl (by decide) (by decide) rfl (fun _ _ => rfl)
      (fun i j k _ _ _ => exactBackend_accepts signbit exhaustiveCfg false i j k)).imp
      fun _ h => ⟨h.1, (h.2.2.2 ⟨16384, by decide⟩).1⟩⟩

/-- C10. For every stride `step > 0`, a run that is not cut short (no fatal call
fails, every lane is accepted, correctness testing is not skipped) returns after
the iterations starting at `0, step, 2*step, ...`: there are
`iterations step = ⌈2^32 / step⌉` of them, all starting below `2^32`; the next
value of the counter is at least `2^32` and below `2^64`, so the 64-bit counter
never wraps; and when `step` divides `2^32` exactly `2^32 / step` iterations are
performed. -/
theorem outer_loop_iterations (f : Func) (cfg : Config) (relaxedMode : Bool) (b : Backend)
    (hpos : 0 < step cfg) (hskip : cfg.gSkipCorrectnessTesting = false)
    (hops : ∀ o, o.fatal = true → b.ret o = 0)
    (hacc : ∀ i j k, j < cfg.BUFFER_SIZE / 8 →
      cfg.gMinVectorSizeIndex ≤ k → k < cfg.gMaxVectorSizeIndex →
      verifyLane f cfg relaxedMode (input cfg i j) (toUInt32 (f.i_f (input cfg i j)))
        (actual b i j k) = none) :
    ∃ r, (∀ n, 2 ^ 32 < n → TestFunc_Int_Double f cfg relaxedMode b n = some r) ∧
      (fills r.trace).map Prod.fst =
        (List.range (iterations (step cfg))).map (fun m => m * step cfg) ∧
      (fills r.trace).length = iterations (step cfg) ∧
      (∀ m, m < iterations (step cfg) → m * step cfg < 2 ^ 32) ∧
      2 ^ 32 ≤ iterations (step cfg) * step cfg ∧
      iterations (step cfg) * step cfg < 2 ^ 64 ∧
      (step cfg ∣ 2 ^ 32 → (fills r.trace).length = 2 ^ 32 / step cfg) := by
  have hacc1 : ∀ i j k, j < batchSize cfg → k ∈ widths cfg →
      laneVerdict f cfg relaxedMode b i j k = none := by
    intro i j k hj hk
    exact hacc i j k hj (mem_widths.1 hk).1 (mem_widths.1 hk).2
  obtain ⟨r, hr, hf⟩ := run_clean hpos hskip hops hacc1 (Nat.lt_succ_self (2 ^ 32))
  have h64 : step cfg < 2 ^ 64 := Nat.mod_lt _ (by norm_num)
  have hlen : (fills r.trace).length = iterations (step cfg) := by
    rw [hf, List.length_map, List.length_range]
  refine ⟨r, (testFunc_stable hr).2 hpos, ?_, hlen, fun m hm => (lt_iterations hpos m).1 hm,
    iterations_mul_ge hpos, iterations_mul_lt hpos h64, fun hdvd => ?_⟩
  · rw [hf, List.map_map]
    rfl
  · rw [hlen, (iterations_of_dvd hpos hdvd).1]

/-- C10, on a 2 MiB buffer with stride 262144: the run performs 16384 iterations. -/
theorem outer_loop_iterations_witness :
    0 < step exhaustiveCfg ∧
    ∃ r, (∀ n, 2 ^ 32 < n → TestFunc_Int_Double signbit exhaustiveCfg false
        (exactBackend signbit exhaustiveCfg) n = some r) ∧ (fills r.trace).length = 16384 :=
  ⟨by decide,
    (outer_loop_iterations signbit exhaustiveCfg false (exactBackend signbit exhaustiveCfg)
      (by decide) rfl (fun _ _ => rfl)
      (fun i j k _ _ _ => exactBackend_accepts signbit exhaustiveCfg false i j k)).imp
      fun _ h => ⟨h.1, (h.2.2.2.2.2.2 ⟨16384, by decide⟩)⟩⟩

/-- C6, refuted as stated: in the bounded-sampling run of `signbit` with a 16-byte
buffer every iteration generates 2 indices, the number of doubles in the buffer,
while 16 x (BUFFER_SIZE / 8) is 32; with a 2 MiB buffer a batch holds 262144
indices, not 4194304. -/
theorem wimpy_batch_counterexample :
    TestFunc_Int_Double signbit wimpyCfg false (exactBackend signbit wimpyCfg) 5 =
      some wimpyRun ∧
    fills wimpyRun.trace =
      [(0, [0, 134217729]), (2147483648, [2147483648, 2281701377])] ∧
    (∃ i bits, Event.fill i bits ∈ wimpyRun.trace ∧
      bits.length ≠ 16 * (wimpyCfg.BUFFER_SIZE / 8)) ∧
    (batchBits { exhaustiveCfg with gWimpyMode := true } 0).length = 262144 ∧
    16 * (exhaustiveCfg.BUFFER_SIZE / 8) = 4194304 :=
  ⟨by decide, by decide, ⟨0, [0, 134217729], by decide, by decide⟩,
    by simp [batchBits, batchSize, exhaustiveCfg], by decide⟩

/-- C6, amended. In bounded-sampling mode, for a buffer of at least one double
whose size times 16 fits an `int`, `scale` is `floor(2^32 / (16 * BUFFER_SIZE / 8)) + 1`.
Every iteration of every run generates exactly `BUFFER_SIZE / 8` indices
`(uint32)(i + j * scale)`, `j < BUFFER_SIZE / 8`, pairwise distinct modulo `2^32`;
the verifier compares lanes of these slots and of active widths only, and an
iteration whose verification is entered and whose lanes are all accepted has
every slot compared for every active width.  When the run is not cut short
(positive stride, no fatal call fails, every lane is accepted, correctness
testing is not skipped) the function returns, each iteration `m * step` below
`2^32` generates that batch, and the lanes compared are, in order and once each,
all slots `j < BUFFER_SIZE / 8` of all active widths of every iteration: each
iteration generates and verifies exactly `BUFFER_SIZE / 8` indices. -/
theorem wimpy_batch_samples (f : Func) (cfg : Config) (relaxedMode : Bool) (b : Backend)
    (hw : cfg.gWimpyMode = true) (hsize : 8 ≤ cfg.BUFFER_SIZE)
    (hint : 16 * cfg.BUFFER_SIZE < 2 ^ 31) :
    scale cfg = ((2 ^ 32 / (16 * cfg.BUFFER_SIZE / 8) + 1 : Nat) : Int) ∧
    (∀ fuel r, TestFunc_Int_Double f cfg relaxedMode b fuel = some r →
      ∀ i bits, Event.fill i bits ∈ r.trace →
        bits = (List.range (cfg.BUFFER_SIZE / 8)).map
          (fun j => (i + j * (2 ^ 32 / (16 * cfg.BUFFER_SIZE / 8) + 1)) % 2 ^ 32) ∧
        bits.length = cfg.BUFFER_SIZE / 8 ∧
        bits.Nodup ∧
        (∀ j k, Event.compare i j k ∈ r.trace →
          j < cfg.BUFFER_SIZE / 8 ∧ cfg.gMinVectorSizeIndex ≤ k ∧
            k < cfg.gMaxVectorSizeIndex) ∧
        ((∃ j k, Event.compare i j k ∈ r.trace) →
          (∀ j k, j < cfg.BUFFER_SIZE / 8 →
            cfg.gMinVectorSizeIndex ≤ k → k < cfg.gMaxVectorSizeIndex →
            verifyLane f cfg relaxedMode (input cfg i j) (toUInt32 (f.i_f (input cfg i j)))
              (actual b i j k) = none) →
          ∀ j k, j < cfg.BUFFER_SIZE / 8 →
            cfg.gMinVectorSizeIndex ≤ k → k < cfg.gMaxVectorSizeIndex →
            Event.compare i j k ∈ r.trace)) ∧
    (0 < step cfg → cfg.gSkipCorrectnessTesting = false →
      (∀ o, o.fatal = true → b.ret o = 0) →
      (∀ i j k, j < cfg.BUFFER_SIZE / 8 →
        cfg.gMinVectorSizeIndex ≤ k → k < cfg.gMaxVectorSizeIndex →
        verifyLane f cfg relaxedMode (input cfg i j) (toUInt32 (f.i_f (input cfg i j)))
          (actual b i j k) = none) →
      ∃ r, (∀ n, 2 ^ 32 < n → TestFunc_Int_Double f cfg relaxedMode b n = some r) ∧
        fills r.trace = (List.range (iterations (step cfg))).map (fun m =>
          (m * step cfg, (List.range (cfg.BUFFER_SIZE / 8)).map (fun j =>
            (m * step cfg + j * (2 ^ 32 / (16 * cfg.BUFFER_SIZE / 8) + 1)) % 2 ^ 32))) ∧
        compares r.trace = (List.range (iterations (step cfg))).flatMap (fun m =>
          (List.range (cfg.BUFFER_SIZE / 8)).flatMap (fun j =>
            (widths cfg).map (fun k => (m * step cfg, j, k)))) ∧
        (∀ i bits, Event.fill i bits ∈ r.trace → ∀ j k,
          (Event.compare i j k ∈ r.trace ↔
            j < cfg.BUFFER_SIZE / 8 ∧ cfg.gMinVectorSizeIndex ≤ k ∧
              k < cfg.gMaxVectorSizeIndex))) := by
  have hbatch : ∀ i, batchBits cfg i = (List.range (cfg.BUFFER_SIZE / 8)).map
      (fun j => (i + j * (2 ^ 32 / (16 * cfg.BUFFER_SIZE / 8) + 1)) % 2 ^ 32) := by
    intro i
    unfold batchBits batchSize
    exact List.map_congr_left fun j _ => inputBits_wimpy hw hsize i j
  refine ⟨(scale_eq hsize).2.1, ?_, ?_⟩
  · intro fuel r hrun i bits hfill
    have hbits := (run_fill_shape hrun hfill).trans (hbatch i)
    refine ⟨hbits, ?_, ?_, ?_, ?_⟩
    · rw [hbits, List.length_map, List.length_range]
    · rw [hbits]
      refine List.Nodup.map_on ?_ (List.nodup_range _)
      intro x hx y hy hxy
      have h1 := add_mod_cancel_of_lt (wimpy_offset_lt hsize hint (List.mem_range.1 hx))
        (wimpy_offset_lt hsize hint (List.mem_range.1 hy)) hxy
      exact Nat.eq_of_mul_eq_mul_right (Nat.succ_pos _) h1
    · intro j k hmem
      have h1 := (run_verShape hrun).1 i j k hmem
      exact ⟨h1.1, mem_widths.1 h1.2⟩
    · intro hver hacc j k hj hk1 hk2
      exact run_allCompared hrun
        (fun j1 k1 hj1 hk => hacc j1 k1 hj1 (mem_widths.1 hk).1 (mem_widths.1 hk).2) hver j k hj
        (mem_widths.2 ⟨hk1, hk2⟩)
  · intro hstep hskip hops hacc
    have hacc1 : ∀ i j k, j < batchSize cfg → k ∈ widths cfg →
        laneVerdict f cfg relaxedMode b i j k = none := by
      intro i j k hj hk
      exact hacc i j k hj (mem_widths.1 hk).1 (mem_widths.1 hk).2
    obtain ⟨r, hr, hf⟩ := run_clean hstep hskip hops hacc1 (Nat.lt_succ_self (2 ^ 32))
    obtain ⟨r1, hr1, hc⟩ := run_compared hstep hskip hops hacc1 (Nat.lt_succ_self (2 ^ 32))
    have hrr : r1 = r := Option.some.inj (hr1.symm.trans hr)
    subst hrr
    refine ⟨r1, (testFunc_stable hr).2 hstep, ?_, hc, ?_⟩
    · rw [hf]
      exact List.map_congr_left fun m _ => by rw [hbatch]
    · intro i bits hfill j k
      constructor
      · intro hmem
        have h1 := (run_verShape hr).1 i j k hmem
        exact ⟨h1.1, mem_widths.1 h1.2⟩
      · rintro ⟨hj, hk⟩
        rw [← mem_fills, hf, List.mem_map] at hfill
        obtain ⟨m, hm, heq⟩ := hfill
        simp only [Prod.mk.injEq] at heq
        rw [← mem_compares, hc, List.mem_flatMap]
        refine ⟨m, hm, ?_⟩
        show (i, j, k) ∈ lanes cfg (m * step cfg)
        rw [mem_lanes]
        exact ⟨heq.1.symm, hj, mem_widths.2 hk⟩

/-- C6 amended, on the bounded-sampling run of `signbit` with a 16-byte buffer:
the first batch is `[0, 2^27 + 1]`, two distinct indices, and the run compares
both slots of each of its two iterations, once each. -/
theorem wimpy_batch_samples_witness :
    TestFunc_Int_Double signbit wimpyCfg false (exactBackend signbit wimpyCfg) 5 =
      some wimpyRun ∧
    Event.fill 0 [0, 134217729] ∈ wimpyRun.trace ∧
    ([0, 134217729] : List Nat).length = wimpyCfg.BUFFER_SIZE / 8 ∧
    ([0, 134217729] : List Nat).Nodup ∧
    compares wimpyRun.trace =
      [(0, 0, 0), (0, 1, 0), (2147483648, 0, 0), (2147483648, 1, 0)] ∧
    ∃ r, (∀ n, 2 ^ 32 < n → TestFunc_Int_Double signbit wimpyCfg false
        (exactBackend signbit wimpyCfg) n = some r) ∧
      compares r.trace = [(0, 0, 0), (0, 1, 0), (2147483648, 0, 0), (2147483648, 1, 0)] :=
  ⟨by decide, by decide,
    ((wimpy_batch_samples signbit wimpyCfg false (exactBackend signbit wimpyCfg) rfl
      (by decide) (by decide)).2.1 5 wimpyRun (by decide) 0 [0, 134217729] (by decide)).2.1,
    ((wimpy_batch_samples signbit wimpyCfg false (exactBackend signbit wimpyCfg) rfl
      (by decide) (by decide)).2.1 5 wimpyRun (by decide) 0 [0, 134217729] (by decide)).2.2.1,
    by decide,
    ((wimpy_batch_samples signbit wimpyCfg false (exactBackend signbit wimpyCfg) rfl
      (by decide) (by decide)).2.2 (by decide) rfl (fun _ _ => rfl)
      (fun i j k _ _ _ => exactBackend_accepts signbit wimpyCfg false i j k)).imp
      fun _ h => ⟨h.1, h.2.2.1.trans (by decide)⟩⟩

/-- C7, the failing paths.  When the kernel build fails, and when the upload of
the input array fails in the first iteration, the function returns through
`return error` (lines 85 and 107): the trace holds no `RestoreFPState` and the
FPU mode at return is the one set by `DisableFTZ` and `Force64BitFPUPrecision`,
not the mode saved at entry.  On the sample runtime the mode at entry is 1 and
the mode at return is 0. -/
theorem early_return_skips_restore (f : Func) (cfg : Config) (relaxedMode : Bool)
    (b : Backend) (fuel : Nat) :
    (b.ret Op.build ≠ 0 →
      TestFunc_Int_Double f cfg relaxedMode b fuel = some
        { status := b.ret Op.build,
          mode := b.Force64BitFPUPrecision (b.DisableFTZ b.mode),
          trace := [Event.DisableFTZ, Event.Force64BitFPUPrecision,
            Event.call Op.build (b.ret Op.build)] }) ∧
    (b.ret Op.build = 0 → b.ret (Op.writeIn 0) ≠ 0 →
      TestFunc_Int_Double f cfg relaxedMode b (fuel + 1) = some
        { status := b.ret (Op.writeIn 0),
          mode := b.Force64BitFPUPrecision (b.DisableFTZ b.mode),
          trace := [Event.DisableFTZ, Event.Force64BitFPUPrecision, Event.call Op.build 0,
            Event.fill 0 (batchBits cfg 0), Event.call (Op.writeIn 0) (b.ret (Op.writeIn 0)),
            Event.log Msg.writeError] }) ∧
    TestFunc_Int_Double signbit smallCfg false (faultyBackend signbit smallCfg Op.build (-11)) 5 =
      some { status := -11, mode := 0,
             trace := [Event.DisableFTZ, Event.Force64BitFPUPrecision,
               Event.call Op.build (-11)] } ∧
    (faultyBackend signbit smallCfg Op.build (-11)).mode = 1 := by
  refine ⟨fun h => ?_, fun h0 h => ?_, by decide, rfl⟩
  · unfold TestFunc_Int_Double buildAndLoop
    rw [if_pos h]
    rfl
  · unfold TestFunc_Int_Double buildAndLoop
    rw [if_neg (by simp [h0]), mainLoop, if_pos (by norm_num)]
    have hb : loopBody f cfg relaxedMode b 0 (b.ret Op.build) =
        (Flow.ret (b.ret (Op.writeIn 0)), [Event.fill 0 (batchBits cfg 0),
          Event.call (Op.writeIn 0) (b.ret (Op.writeIn 0)), Event.log Msg.writeError]) := by
      unfold loopBody
      rw [emit, seq_next, callOrReturn, if_pos h]
      rfl
    rw [hb, h0]
    rfl

/-- C9, the failing input.  With an empty range of vector widths, every fatal
call succeeding and no comparison failing (none is made), a `clFlush` that
returns `-36` in the last iteration makes the function return `-36`: the code of
line 154 stays in `error` because no read-back overwrites it.  With one active
width the same runtime gives status 0. -/
theorem flush_error_leaks_without_widths :
    TestFunc_Int_Double signbit noWidthCfg false
        (faultyBackend signbit noWidthCfg (Op.flush 2147483648) (-36)) 5 = some flushLeakRun ∧
    flushLeakRun.status = -36 ∧
    compares flushLeakRun.trace = [] ∧
    widths noWidthCfg = [] ∧
    (∀ o, o.fatal = true →
      (faultyBackend signbit noWidthCfg (Op.flush 2147483648) (-36)).ret o = 0) ∧
    (TestFunc_Int_Double signbit smallCfg false
        (faultyBackend signbit smallCfg (Op.flush 2147483648) (-36)) 5).map Result.status =
      some 0 := by
  refine ⟨by decide, by decide, by decide, by decide, ?_, by decide⟩
  intro o ho
  cases o <;> simp_all [faultyBackend, exactBackend, Op.fatal]

end IUnaryDouble
